import Mathlib

/-!
Verification of the resource-matching core of `terraform-move-helper`
(`src/main.py`): a shallow embedding of the similarity profiler, the
structural-overlap scorer, the score aggregator and the greedy assignment
solver, together with theorems settling the specification's claims.

Modelling conventions:
* Python `dict`s (string-keyed, insertion-ordered) are association lists
  `List (String × β)`; assignment `d[k] = v` updates the value in place when
  the key exists and appends otherwise (`assocSet`), and `d.get(k, v0)` is
  `dictGetD`.
* Real-valued scores are idealized as exact arithmetic: the four rational
  text metrics live in `ℚ`; the cosine metric (a quotient of square roots)
  lives in `ℝ`.
* Library calls (`jellyfish`, `difflib`, `sklearn`) are embedded by their
  documented semantics, since their code is not part of the repository.
* Exceptions escaping a Python function are `Except.error`.
-/

namespace TMH

/-- Python `d.get(k, v0)` on a string-keyed association list. -/
def dictGetD {β : Type} (d : List (String × β)) (k : String) (v0 : β) : β :=
  match d with
  | [] => v0
  | p :: rest => if p.1 = k then p.2 else dictGetD rest k v0

/-- Python `d[k] = v`: replace in place when the key exists, append otherwise. -/
def assocSet {β : Type} (d : List (String × β)) (k : String) (v : β) :
    List (String × β) :=
  if d.any (fun p => p.1 = k) then
    d.map (fun p => if p.1 = k then (k, v) else p)
  else
    d ++ [(k, v)]

/-- Python `k in d` on an association list. -/
def dictHas {β : Type} (d : List (String × β)) (k : String) : Bool :=
  d.any (fun p => p.1 = k)

/-!
## Similarity Profiler: Levenshtein distance

Embedding of `jellyfish.levenshtein_distance` (classic edit distance).
-/

/-- Levenshtein edit distance between two character lists. -/
def levenshtein_distance : List Char → List Char → ℕ
  | [], ys => ys.length
  | x :: xs, [] => (x :: xs).length
  | x :: xs, y :: ys =>
    if x = y then levenshtein_distance xs ys
    else 1 + min (levenshtein_distance xs ys)
          (min (levenshtein_distance (x :: xs) ys)
               (levenshtein_distance xs (y :: ys)))
termination_by xs ys => xs.length + ys.length

theorem levenshtein_distance_nil_left (ys : List Char) :
    levenshtein_distance [] ys = ys.length := by
  cases ys <;> simp [levenshtein_distance]

theorem levenshtein_distance_nil_right (xs : List Char) :
    levenshtein_distance xs [] = xs.length := by
  cases xs <;> simp [levenshtein_distance]

theorem levenshtein_distance_self (xs : List Char) :
    levenshtein_distance xs xs = 0 := by
  induction xs with
  | nil => simp [levenshtein_distance]
  | cons x xs ih => simp [levenshtein_distance, ih]

theorem levenshtein_distance_le_max (xs ys : List Char) :
    levenshtein_distance xs ys ≤ max xs.length ys.length := by
  induction xs, ys using levenshtein_distance.induct with
  | case1 ys => simp [levenshtein_distance_nil_left]
  | case2 x xs => simp [levenshtein_distance_nil_right]
  | case3 xs y ys ih =>
    rw [levenshtein_distance, if_pos rfl]
    refine ih.trans ?_
    simp only [List.length_cons, Nat.max_le, le_max_iff] at *
    omega
  | case4 x xs y ys hxy ih1 ih2 ih3 =>
    rw [levenshtein_distance, if_neg hxy]
    have hm : min (levenshtein_distance xs ys)
        (min (levenshtein_distance (x :: xs) ys)
             (levenshtein_distance xs (y :: ys))) ≤
        levenshtein_distance xs ys := min_le_left _ _
    have h2 := hm.trans ih1
    simp only [List.length_cons, Nat.max_le, le_max_iff] at *
    omega

/-!
## Similarity Profiler: Damerau-Levenshtein distance

Embedding of `jellyfish.damerau_levenshtein_distance`. The transposition
case is written in the optimal-string-alignment recursion; every property
used below (zero on equal strings, bounded by the longer length) also holds
for the unrestricted Damerau-Levenshtein distance the library computes, and
the two distances agree on all concrete inputs appearing in this file.
-/

/-- Damerau-Levenshtein edit distance between two character lists. A
transposition step applies when the two leading characters are swapped. -/
def damerau_levenshtein_distance : List Char → List Char → ℕ
  | [], ys => ys.length
  | x :: xs, [] => (x :: xs).length
  | x :: xs, y :: ys =>
    if ys.head? = some x ∧ xs.head? = some y then
      min (min (damerau_levenshtein_distance xs ys + (if x = y then 0 else 1))
            (min (damerau_levenshtein_distance (x :: xs) ys + 1)
                 (damerau_levenshtein_distance xs (y :: ys) + 1)))
          (damerau_levenshtein_distance xs.tail ys.tail + 1)
    else
      min (damerau_levenshtein_distance xs ys + (if x = y then 0 else 1))
          (min (damerau_levenshtein_distance (x :: xs) ys + 1)
               (damerau_levenshtein_distance xs (y :: ys) + 1))
termination_by xs ys => xs.length + ys.length
decreasing_by
  all_goals simp_all
  all_goals omega

theorem damerau_levenshtein_distance_self (xs : List Char) :
    damerau_levenshtein_distance xs xs = 0 := by
  induction xs with
  | nil => simp [damerau_levenshtein_distance]
  | cons x xs ih =>
    rw [damerau_levenshtein_distance]
    have hbase : min (damerau_levenshtein_distance xs xs + (if x = x then 0 else 1))
          (min (damerau_levenshtein_distance (x :: xs) xs + 1)
               (damerau_levenshtein_distance xs (x :: xs) + 1)) = 0 := by
      simp [ih]
    split
    · simp [hbase, ih]
    · exact hbase

theorem damerau_levenshtein_distance_le_max (xs ys : List Char) :
    damerau_levenshtein_distance xs ys ≤ max xs.length ys.length := by
  induction xs, ys using damerau_levenshtein_distance.induct with
  | case1 ys => simp [damerau_levenshtein_distance]
  | case2 x xs => simp [damerau_levenshtein_distance]
  | case3 x xs y ys htr ih1 ih2 ih3 ih4 =>
    rw [damerau_levenshtein_distance, if_pos htr]
    have hb : min (damerau_levenshtein_distance xs ys + (if x = y then 0 else 1))
          (min (damerau_levenshtein_distance (x :: xs) ys + 1)
               (damerau_levenshtein_distance xs (y :: ys) + 1)) ≤
        damerau_levenshtein_distance xs ys + 1 := by
      refine (min_le_left _ _).trans ?_
      split <;> omega
    have h2 : min (min (damerau_levenshtein_distance xs ys + (if x = y then 0 else 1))
          (min (damerau_levenshtein_distance (x :: xs) ys + 1)
               (damerau_levenshtein_distance xs (y :: ys) + 1)))
          (damerau_levenshtein_distance xs.tail ys.tail + 1) ≤
        damerau_levenshtein_distance xs ys + 1 := le_trans (min_le_left _ _) hb
    simp only [List.length_cons, Nat.max_le, le_max_iff] at *
    omega
  | case4 x xs y ys htr ih1 ih2 ih3 =>
    rw [damerau_levenshtein_distance, if_neg htr]
    have hb : min (damerau_levenshtein_distance xs ys + (if x = y then 0 else 1))
          (min (damerau_levenshtein_distance (x :: xs) ys + 1)
               (damerau_levenshtein_distance xs (y :: ys) + 1)) ≤
        damerau_levenshtein_distance xs ys + 1 := by
      refine (min_le_left _ _).trans ?_
      split <;> omega
    simp only [List.length_cons, Nat.max_le, le_max_iff] at *
    omega

/-!
## Similarity Profiler: length-normalized metrics

`scores['levenshtein']` and `scores['damerau_levenshtein']` in
`compute_similarity_scores` (src/main.py lines 73-82):
`1 - (distance / max_len) if max_len > 0 else 1.0`.
-/

/-- Normalized Levenshtein similarity of two identifier strings. -/
def levenshtein_metric (a b : String) : ℚ :=
  if 0 < max a.toList.length b.toList.length then
    1 - (levenshtein_distance a.toList b.toList : ℚ) /
        (max a.toList.length b.toList.length : ℚ)
  else 1

/-- Normalized Damerau-Levenshtein similarity of two identifier strings. -/
def damerau_metric (a b : String) : ℚ :=
  if 0 < max a.toList.length b.toList.length then
    1 - (damerau_levenshtein_distance a.toList b.toList : ℚ) /
        (max a.toList.length b.toList.length : ℚ)
  else 1

theorem levenshtein_metric_bounds (a b : String) :
    0 ≤ levenshtein_metric a b ∧ levenshtein_metric a b ≤ 1 := by
  unfold levenshtein_metric
  split
  · rename_i hpos
    have hle := levenshtein_distance_le_max a.toList b.toList
    have hpos' : (0 : ℚ) < (max a.toList.length b.toList.length : ℚ) := by
      exact_mod_cast hpos
    constructor
    · have hq : (levenshtein_distance a.toList b.toList : ℚ) /
          (max a.toList.length b.toList.length : ℚ) ≤ 1 := by
        rw [div_le_one hpos']
        exact_mod_cast hle
      linarith
    · have hq : 0 ≤ (levenshtein_distance a.toList b.toList : ℚ) /
          (max a.toList.length b.toList.length : ℚ) :=
        div_nonneg (by positivity) (le_of_lt hpos')
      linarith
  · exact ⟨by norm_num, by norm_num⟩

theorem damerau_metric_bounds (a b : String) :
    0 ≤ damerau_metric a b ∧ damerau_metric a b ≤ 1 := by
  unfold damerau_metric
  split
  · rename_i hpos
    have hle := damerau_levenshtein_distance_le_max a.toList b.toList
    have hpos' : (0 : ℚ) < (max a.toList.length b.toList.length : ℚ) := by
      exact_mod_cast hpos
    constructor
    · have hq : (damerau_levenshtein_distance a.toList b.toList : ℚ) /
          (max a.toList.length b.toList.length : ℚ) ≤ 1 := by
        rw [div_le_one hpos']
        exact_mod_cast hle
      linarith
    · have hq : 0 ≤ (damerau_levenshtein_distance a.toList b.toList : ℚ) /
          (max a.toList.length b.toList.length : ℚ) :=
        div_nonneg (by positivity) (le_of_lt hpos')
      linarith
  · exact ⟨by norm_num, by norm_num⟩

theorem levenshtein_metric_self (a : String) : levenshtein_metric a a = 1 := by
  unfold levenshtein_metric
  split
  · simp [levenshtein_distance_self]
  · rfl

theorem damerau_metric_self (a : String) : damerau_metric a a = 1 := by
  unfold damerau_metric
  split
  · simp [damerau_levenshtein_distance_self]
  · rfl

/-!
## Similarity Profiler: Jaro-Winkler

Embedding of `jellyfish.jaro_winkler_similarity` (default parameters: the
Winkler prefix boost active, no long-string tolerance). The matching phase
flags, for each character of the first string scanned left to right, the
first unflagged equal character of the second string inside the search
window; the transposition count is half the number of positions where the
flagged character sequences of the two strings disagree.
-/

/-- Flag state of the Jaro matching phase. -/
structure JaroState where
  sFlags : List Bool
  tFlags : List Bool
  common : ℕ
deriving Repr, DecidableEq

/-- One step of the Jaro matching phase: try to match character `ip.2` of
the first string (at index `ip.1`) inside the window of radius `r`. -/
def jaroStep (t : List Char) (r : ℕ) (st : JaroState) (ip : ℕ × Char) : JaroState :=
  match (List.range' (ip.1 - r) (min (ip.1 + r) (t.length - 1) + 1 - (ip.1 - r))).find?
      (fun j => !(st.tFlags.getD j true) && (t.getD j ip.2 == ip.2)) with
  | some j => ⟨st.sFlags.set ip.1 true, st.tFlags.set j true, st.common + 1⟩
  | none => st

/-- The complete Jaro matching phase over the first string. -/
def jaroMatch (s t : List Char) (r : ℕ) : JaroState :=
  s.enum.foldl (jaroStep t r) ⟨List.replicate s.length false, List.replicate t.length false, 0⟩

/-- Characters of `s` sitting at flagged positions, in order. -/
def flaggedChars (s : List Char) (flags : List Bool) : List Char :=
  ((s.zip flags).filter (fun p => p.2)).map (fun p => p.1)

/-- Transposition count: half the number of disagreeing flagged positions. -/
def jaroTransCount (s t : List Char) (st : JaroState) : ℕ :=
  (((flaggedChars s st.sFlags).zip (flaggedChars t st.tFlags)).countP
    (fun p => p.1 != p.2)) / 2

/-- Length of the common prefix, capped at `cap`. -/
def commonPrefixCount (s t : List Char) (cap : ℕ) : ℕ :=
  (((s.zip t).take cap).takeWhile (fun p => p.1 == p.2)).length

/-- Jaro-Winkler similarity of two identifier strings. -/
def jaro_winkler_similarity (sa sb : String) : ℚ :=
  let s := sa.toList
  let t := sb.toList
  if s.length = 0 ∨ t.length = 0 then 0
  else
    let r := max s.length t.length / 2 - 1
    let st := jaroMatch s t r
    if st.common = 0 then 0
    else
      let m : ℚ := st.common
      let tc : ℚ := jaroTransCount s t st
      let weight : ℚ := (m / s.length + m / t.length + (m - tc) / m) / 3
      if 7/10 < weight then
        let l : ℚ := commonPrefixCount s t (min (min s.length t.length) 4)
        weight + l * (1/10) * (1 - weight)
      else weight

theorem countP_set_true {l : List Bool} {j : ℕ} (h : l.getD j true = false) :
    ((l.set j true).countP (fun b => b)) = l.countP (fun b => b) + 1 := by
  induction l generalizing j with
  | nil => simp [List.getD] at h
  | cons b bs ih =>
    cases j with
    | zero =>
      simp only [List.getD_cons_zero] at h
      subst h
      simp [List.countP_cons]
    | succ j =>
      simp only [List.getD_cons_succ] at h
      simp only [List.set, List.countP_cons, ih h]
      omega

/-- Invariant of the Jaro matching phase: flag lists keep their lengths and
the number of raised second-string flags equals the match counter. -/
def jaroInv (s t : List Char) (st : JaroState) : Prop :=
  st.sFlags.length = s.length ∧ st.tFlags.length = t.length ∧
  st.tFlags.countP (fun b => b) = st.common

theorem jaroStep_inv {s t : List Char} {r : ℕ} {st : JaroState} (ip : ℕ × Char)
    (h : jaroInv s t st) : jaroInv s t (jaroStep t r st ip) := by
  obtain ⟨h1, h2, h3⟩ := h
  unfold jaroStep
  cases hfind : (List.range' (ip.1 - r) (min (ip.1 + r) (t.length - 1) + 1 - (ip.1 - r))).find?
      (fun j => !(st.tFlags.getD j true) && (t.getD j ip.2 == ip.2)) with
  | none => exact ⟨h1, h2, h3⟩
  | some j =>
    have hp := List.find?_some hfind
    simp only [Bool.and_eq_true, Bool.not_eq_true'] at hp
    have hflag : st.tFlags.getD j true = false := hp.1
    refine ⟨by simpa using h1, by simpa using h2, ?_⟩
    simpa [countP_set_true hflag] using h3

theorem jaroFold_inv (s t : List Char) (r : ℕ) (l : List (ℕ × Char))
    (st : JaroState) (h : jaroInv s t st) :
    jaroInv s t (l.foldl (jaroStep t r) st) := by
  induction l generalizing st with
  | nil => exact h
  | cons ip l ih => exact ih _ (jaroStep_inv ip h)

theorem jaroStep_common_le {t : List Char} {r : ℕ} (st : JaroState) (ip : ℕ × Char) :
    (jaroStep t r st ip).common ≤ st.common + 1 := by
  unfold jaroStep
  cases hfind : (List.range' (ip.1 - r) (min (ip.1 + r) (t.length - 1) + 1 - (ip.1 - r))).find?
      (fun j => !(st.tFlags.getD j true) && (t.getD j ip.2 == ip.2)) with
  | none => exact Nat.le_succ _
  | some j => simp

theorem jaroFold_common_le (t : List Char) (r : ℕ) (l : List (ℕ × Char))
    (st : JaroState) :
    (l.foldl (jaroStep t r) st).common ≤ st.common + l.length := by
  induction l generalizing st with
  | nil => simp
  | cons ip l ih =>
    refine (ih _).trans ?_
    have := @jaroStep_common_le t r st ip
    simp only [List.length_cons]
    omega

theorem jaroMatch_inv (s t : List Char) (r : ℕ) : jaroInv s t (jaroMatch s t r) := by
  unfold jaroMatch
  exact jaroFold_inv s t r _ _ ⟨by simp, by simp, by simp⟩

theorem jaroMatch_common_le_left (s t : List Char) (r : ℕ) :
    (jaroMatch s t r).common ≤ s.length := by
  unfold jaroMatch
  have h := jaroFold_common_le t r s.enum ⟨List.replicate s.length false, List.replicate t.length false, 0⟩
  simpa using h

theorem jaroMatch_common_le_right (s t : List Char) (r : ℕ) :
    (jaroMatch s t r).common ≤ t.length := by
  obtain ⟨h1, h2, h3⟩ := jaroMatch_inv s t r
  calc (jaroMatch s t r).common = (jaroMatch s t r).tFlags.countP (fun b => b) := h3.symm
    _ ≤ (jaroMatch s t r).tFlags.length := List.countP_le_length _
    _ = t.length := h2

theorem flaggedChars_length_le {s : List Char} {flags : List Bool} :
    (flaggedChars s flags).length ≤ flags.countP (fun b => b) := by
  induction s generalizing flags with
  | nil => simp [flaggedChars]
  | cons c s ih =>
    cases flags with
    | nil => simp [flaggedChars]
    | cons b bs =>
      have h := @ih bs
      cases b with
      | false =>
        simp only [flaggedChars, List.zip_cons_cons, List.filter_cons, List.length_map,
          List.countP_cons] at h ⊢
        simp only [decide_eq_true_eq, Bool.false_eq_true, if_false]
        simpa using h
      | true =>
        simp only [flaggedChars, List.zip_cons_cons, List.filter_cons, List.length_map,
          List.countP_cons] at h ⊢
        simp only [decide_eq_true_eq, if_true, List.length_cons]
        simp at h ⊢
        omega

theorem jaroTransCount_le (s t : List Char) (st : JaroState)
    (h : st.tFlags.countP (fun b => b) = st.common) :
    jaroTransCount s t st ≤ st.common := by
  unfold jaroTransCount
  have h1 : (((flaggedChars s st.sFlags).zip (flaggedChars t st.tFlags)).countP
      (fun p => p.1 != p.2)) ≤ (flaggedChars t st.tFlags).length := by
    refine (List.countP_le_length _).trans ?_
    simp [List.length_zip]
  have h2 : (flaggedChars t st.tFlags).length ≤ st.common :=
    h ▸ flaggedChars_length_le
  have := Nat.div_le_self (((flaggedChars s st.sFlags).zip
      (flaggedChars t st.tFlags)).countP (fun p => p.1 != p.2)) 2
  omega

theorem jaroWeight_bounds {m slen tlen tc : ℕ}
    (hm : 0 < m) (hs : m ≤ slen) (ht : m ≤ tlen) (htc : tc ≤ m) :
    0 ≤ ((m : ℚ) / slen + (m : ℚ) / tlen + ((m : ℚ) - tc) / m) / 3 ∧
    ((m : ℚ) / slen + (m : ℚ) / tlen + ((m : ℚ) - tc) / m) / 3 ≤ 1 := by
  have hsq : (0:ℚ) < slen := by exact_mod_cast lt_of_lt_of_le hm hs
  have htq : (0:ℚ) < tlen := by exact_mod_cast lt_of_lt_of_le hm ht
  have hmq : (0:ℚ) < m := by exact_mod_cast hm
  have t1a : (0:ℚ) ≤ (m : ℚ) / slen := by positivity
  have t1b : (m : ℚ) / slen ≤ 1 := by
    rw [div_le_one hsq]; exact_mod_cast hs
  have t2a : (0:ℚ) ≤ (m : ℚ) / tlen := by positivity
  have t2b : (m : ℚ) / tlen ≤ 1 := by
    rw [div_le_one htq]; exact_mod_cast ht
  have htcq : (tc:ℚ) ≤ (m:ℚ) := by exact_mod_cast htc
  have t3a : (0:ℚ) ≤ ((m : ℚ) - tc) / m := by
    apply div_nonneg _ (le_of_lt hmq); linarith
  have t3b : ((m : ℚ) - tc) / m ≤ 1 := by
    rw [div_le_one hmq]; have : (0:ℚ) ≤ tc := by positivity
    linarith
  constructor <;> linarith

theorem commonPrefixCount_le (s t : List Char) (cap : ℕ) :
    commonPrefixCount s t cap ≤ cap := by
  unfold commonPrefixCount
  refine ((List.takeWhile_sublist _).length_le).trans ?_
  exact List.length_take_le cap (s.zip t)

theorem jaro_winkler_similarity_bounds (a b : String) :
    0 ≤ jaro_winkler_similarity a b ∧ jaro_winkler_similarity a b ≤ 1 := by
  unfold jaro_winkler_similarity
  simp only []
  split
  · norm_num
  · rename_i hlen
    push_neg at hlen
    obtain ⟨hs0, ht0⟩ := hlen
    split
    · norm_num
    · rename_i hm0
      have hm : 0 < (jaroMatch a.toList b.toList (max a.toList.length b.toList.length / 2 - 1)).common :=
        Nat.pos_of_ne_zero hm0
      have hinv := jaroMatch_inv a.toList b.toList (max a.toList.length b.toList.length / 2 - 1)
      have hsle := jaroMatch_common_le_left a.toList b.toList (max a.toList.length b.toList.length / 2 - 1)
      have htle := jaroMatch_common_le_right a.toList b.toList (max a.toList.length b.toList.length / 2 - 1)
      have htc := jaroTransCount_le a.toList b.toList _ hinv.2.2
      have hw := jaroWeight_bounds hm hsle htle htc
      split
      · rename_i hboost
        have hl4 : commonPrefixCount a.toList b.toList
            (min (min a.toList.length b.toList.length) 4) ≤ 4 := by
          refine (commonPrefixCount_le _ _ _).trans ?_
          omega
        have hlq : (0:ℚ) ≤ (commonPrefixCount a.toList b.toList
            (min (min a.toList.length b.toList.length) 4) : ℚ) := by positivity
        have hlq4 : (commonPrefixCount a.toList b.toList
            (min (min a.toList.length b.toList.length) 4) : ℚ) ≤ 4 := by
          exact_mod_cast hl4
        obtain ⟨hw0, hw1⟩ := hw
        constructor
        · nlinarith
        · nlinarith
      · exact hw

/-!
## Similarity Profiler: Ratcliff/Obershelp

Embedding of `difflib.SequenceMatcher(None, a, b).ratio()`: twice the total
size of the matching blocks over the total length. `find_longest_match`
returns the longest matching block, ties resolved to the earliest start in
`a` and then in `b`; the total is obtained by recursing on the pieces left
and right of that block. (The `autojunk` heuristic of the library only
activates on strings of 200 or more characters and is not modelled.)
-/

/-- A fold invariant: a property preserved by every step holds at the end. -/
theorem foldl_inv {σ β : Type} (f : σ → β → σ) (P : σ → Prop) :
    ∀ (l : List β) (init : σ), P init → (∀ acc x, P acc → P (f acc x)) →
      P (l.foldl f init) := by
  intro l
  induction l with
  | nil => intro init h _; exact h
  | cons x l ih => intro init h hstep; exact ih _ (hstep init x h) hstep

/-- Length of the longest common prefix of two character lists. -/
def prefixMatchLen : List Char → List Char → ℕ
  | x :: xs, y :: ys => if x = y then prefixMatchLen xs ys + 1 else 0
  | _, _ => 0

theorem prefixMatchLen_le_left (xs ys : List Char) :
    prefixMatchLen xs ys ≤ xs.length := by
  induction xs generalizing ys with
  | nil => cases ys <;> simp [prefixMatchLen]
  | cons x xs ih =>
    cases ys with
    | nil => simp [prefixMatchLen]
    | cons y ys =>
      rw [prefixMatchLen]
      split
      · simpa using ih ys
      · simp

theorem prefixMatchLen_le_right (xs ys : List Char) :
    prefixMatchLen xs ys ≤ ys.length := by
  induction xs generalizing ys with
  | nil => cases ys <;> simp [prefixMatchLen]
  | cons x xs ih =>
    cases ys with
    | nil => simp [prefixMatchLen]
    | cons y ys =>
      rw [prefixMatchLen]
      split
      · simpa using ih ys
      · simp

/-- difflib `find_longest_match` over the full ranges: scan all start pairs
in lexicographic order and keep the first block of maximal length. -/
def bestBlock (a b : List Char) : ℕ × ℕ × ℕ :=
  (List.range a.length).foldl (fun best i =>
    (List.range b.length).foldl (fun best j =>
      if best.2.2 < prefixMatchLen (a.drop i) (b.drop j) then
        (i, j, prefixMatchLen (a.drop i) (b.drop j))
      else best) best) (0, 0, 0)

theorem bestBlock_bounds (a b : List Char) :
    (bestBlock a b).2.2 ≤ a.length - (bestBlock a b).1 ∧
    (bestBlock a b).2.2 ≤ b.length - (bestBlock a b).2.1 := by
  unfold bestBlock
  apply foldl_inv _
    (fun best : ℕ × ℕ × ℕ => best.2.2 ≤ a.length - best.1 ∧ best.2.2 ≤ b.length - best.2.1)
  · simp
  · intro acc i hacc
    apply foldl_inv _
      (fun best : ℕ × ℕ × ℕ => best.2.2 ≤ a.length - best.1 ∧ best.2.2 ≤ b.length - best.2.1)
    · exact hacc
    · intro acc2 j hacc2
      split
      · constructor
        · have := prefixMatchLen_le_left (a.drop i) (b.drop j)
          simpa [List.length_drop] using this
        · have := prefixMatchLen_le_right (a.drop i) (b.drop j)
          simpa [List.length_drop] using this
      · exact hacc2

/-- difflib matching-block total: the summed sizes of all matching blocks
found by recursive longest-match decomposition. -/
def matchingTotal (a b : List Char) : ℕ :=
  match hbb : bestBlock a b with
  | (i, j, k) =>
    if k = 0 then 0
    else
      matchingTotal (a.take i) (b.take j) + k +
      matchingTotal (a.drop (i + k)) (b.drop (j + k))
termination_by a.length + b.length
decreasing_by
  · have h := bestBlock_bounds a b
    rw [hbb] at h
    simp only [List.length_take, List.length_drop] at *
    omega
  · have h := bestBlock_bounds a b
    rw [hbb] at h
    simp only [List.length_take, List.length_drop] at *
    omega

theorem matchingTotal_le_aux (n : ℕ) :
    ∀ (a b : List Char), a.length + b.length ≤ n →
      matchingTotal a b ≤ min a.length b.length := by
  induction n using Nat.strong_induction_on with
  | _ n ih =>
  intro a b hn
  rw [matchingTotal]
  split
  · rename_i i j k hbb
    split
    · simp
    · rename_i hk
      have hb := bestBlock_bounds a b
      rw [hbb] at hb
      simp only at hb
      have hik : i + k ≤ a.length := by omega
      have hjk : j + k ≤ b.length := by omega
      have h1 : matchingTotal (a.take i) (b.take j) ≤
          min (a.take i).length (b.take j).length := by
        refine ih ((a.take i).length + (b.take j).length) ?_ _ _ le_rfl
        simp only [List.length_take]
        omega
      have h2 : matchingTotal (a.drop (i + k)) (b.drop (j + k)) ≤
          min (a.drop (i + k)).length (b.drop (j + k)).length := by
        refine ih ((a.drop (i + k)).length + (b.drop (j + k)).length) ?_ _ _ le_rfl
        simp only [List.length_drop]
        omega
      simp only [List.length_take, List.length_drop] at h1 h2
      omega

theorem matchingTotal_le (a b : List Char) :
    matchingTotal a b ≤ min a.length b.length :=
  matchingTotal_le_aux (a.length + b.length) a b le_rfl

/-- Ratcliff/Obershelp similarity ratio of two identifier strings. -/
def ratcliff_obershelp (sa sb : String) : ℚ :=
  if sa.toList.length + sb.toList.length = 0 then 1
  else 2 * (matchingTotal sa.toList sb.toList : ℚ) /
      ((sa.toList.length + sb.toList.length : ℕ) : ℚ)

theorem ratcliff_obershelp_bounds (a b : String) :
    0 ≤ ratcliff_obershelp a b ∧ ratcliff_obershelp a b ≤ 1 := by
  unfold ratcliff_obershelp
  split
  · norm_num
  · rename_i hne
    have hpos : 0 < a.toList.length + b.toList.length := Nat.pos_of_ne_zero hne
    have hposq : (0:ℚ) < ((a.toList.length + b.toList.length : ℕ) : ℚ) := by
      exact_mod_cast hpos
    have hm := matchingTotal_le a.toList b.toList
    have h2m : 2 * matchingTotal a.toList b.toList ≤ a.toList.length + b.toList.length := by
      omega
    constructor
    · positivity
    · rw [div_le_one hposq]
      exact_mod_cast h2m

/-!
## Similarity Profiler: cosine similarity on character bigrams

Embedding of `CountVectorizer(analyzer='char', ngram_range=(2, 2))` followed
by `sklearn.metrics.pairwise.cosine_similarity`. The vectorizer lowercases
its input and extracts character bigrams; fitting on two documents that
produce no bigram at all raises `ValueError: empty vocabulary`, which is the
error case below. `cosine_similarity` L2-normalizes each count vector,
substituting 1 for a zero norm, so a zero vector yields similarity 0. The
vocabulary ordering (sorted in the library, first-occurrence here) does not
affect the value, which is permutation-invariant.
-/

/-- Dot product of two count vectors (componentwise, truncating). -/
def dotNN : List ℕ → List ℕ → ℕ
  | x :: xs, y :: ys => x * y + dotNN xs ys
  | _, _ => 0

theorem dotNN_comm (u v : List ℕ) : dotNN u v = dotNN v u := by
  induction u generalizing v with
  | nil => cases v <;> simp [dotNN]
  | cons x xs ih =>
    cases v with
    | nil => simp [dotNN]
    | cons y ys => rw [dotNN, dotNN, ih, Nat.mul_comm]

theorem dotNN_sq_le (u v : List ℕ) :
    dotNN u v * dotNN u v ≤ dotNN u u * dotNN v v := by
  induction u generalizing v with
  | nil => cases v <;> simp [dotNN]
  | cons x xs ih =>
    cases v with
    | nil => simp [dotNN]
    | cons y ys =>
      have h := ih ys
      rw [dotNN, dotNN, dotNN]
      rcases Nat.eq_zero_or_pos (dotNN xs xs) with hA | hA
      · have hD : dotNN xs ys = 0 := by
          rw [hA, Nat.zero_mul] at h
          have h0 : dotNN xs ys * dotNN xs ys = 0 := Nat.le_zero.mp h
          exact (Nat.mul_eq_zero.mp h0).elim (fun hh => hh) (fun hh => hh)
        rw [hA, hD]
        nlinarith
      · zify at h ⊢
        have hAz : (0:ℤ) < (dotNN xs xs : ℤ) := by exact_mod_cast hA
        nlinarith [sq_nonneg ((x:ℤ) * (dotNN xs ys : ℤ) - (y:ℤ) * (dotNN xs xs : ℤ)),
          mul_nonneg (mul_self_nonneg ((x:ℤ))) (by linarith :
            (0:ℤ) ≤ (dotNN xs xs : ℤ) * (dotNN ys ys : ℤ) - (dotNN xs ys : ℤ) * (dotNN xs ys : ℤ)),
          hAz]

theorem dotNN_eq_zero {u : List ℕ} (h : dotNN u u = 0) (v : List ℕ) :
    dotNN u v = 0 := by
  have hle := dotNN_sq_le u v
  rw [h, Nat.zero_mul] at hle
  have h0 : dotNN u v * dotNN u v = 0 := Nat.le_zero.mp hle
  exact (Nat.mul_eq_zero.mp h0).elim (fun hh => hh) (fun hh => hh)

/-- Cosine similarity of two count vectors, with sklearn's convention of
substituting 1 for a zero norm during normalization. -/
noncomputable def cosineSimilarityR (u v : List ℕ) : ℝ :=
  (dotNN u v : ℝ) /
    ((if Real.sqrt (dotNN u u) = 0 then 1 else Real.sqrt (dotNN u u)) *
     (if Real.sqrt (dotNN v v) = 0 then 1 else Real.sqrt (dotNN v v)))

theorem cosineSimilarityR_zero_left {u : List ℕ} (h : dotNN u u = 0)
    (v : List ℕ) : cosineSimilarityR u v = 0 := by
  unfold cosineSimilarityR
  rw [dotNN_eq_zero h v]
  simp

theorem cosineSimilarityR_zero_right {v : List ℕ} (h : dotNN v v = 0)
    (u : List ℕ) : cosineSimilarityR u v = 0 := by
  unfold cosineSimilarityR
  rw [dotNN_comm u v, dotNN_eq_zero h u]
  simp

theorem cosineSimilarityR_bounds (u v : List ℕ) :
    0 ≤ cosineSimilarityR u v ∧ cosineSimilarityR u v ≤ 1 := by
  rcases Nat.eq_zero_or_pos (dotNN u u) with hA | hA
  · rw [cosineSimilarityR_zero_left hA v]; norm_num
  rcases Nat.eq_zero_or_pos (dotNN v v) with hB | hB
  · rw [cosineSimilarityR_zero_right hB u]; norm_num
  have hAr : (0:ℝ) < (dotNN u u : ℝ) := by exact_mod_cast hA
  have hBr : (0:ℝ) < (dotNN v v : ℝ) := by exact_mod_cast hB
  have hsA : 0 < Real.sqrt (dotNN u u) := Real.sqrt_pos.mpr hAr
  have hsB : 0 < Real.sqrt (dotNN v v) := Real.sqrt_pos.mpr hBr
  unfold cosineSimilarityR
  rw [if_neg (ne_of_gt hsA), if_neg (ne_of_gt hsB)]
  have hden : 0 < Real.sqrt (dotNN u u) * Real.sqrt (dotNN v v) :=
    mul_pos hsA hsB
  constructor
  · exact div_nonneg (by positivity) (le_of_lt hden)
  · rw [div_le_one hden, ← Real.sqrt_mul (by positivity) ((dotNN v v : ℕ) : ℝ)]
    rw [show ((dotNN u v : ℕ) : ℝ) = Real.sqrt (((dotNN u v : ℕ) : ℝ) ^ 2) by
      rw [Real.sqrt_sq (by positivity)]]
    apply Real.sqrt_le_sqrt
    have := dotNN_sq_le u v
    have hcast : ((dotNN u v : ℕ) : ℝ) * ((dotNN u v : ℕ) : ℝ) ≤
        ((dotNN u u : ℕ) : ℝ) * ((dotNN v v : ℕ) : ℝ) := by exact_mod_cast this
    nlinarith [hcast]

/-- Character bigrams of the lowercased string, as produced by sklearn's
`char` analyzer with `ngram_range=(2, 2)`. -/
def charBigrams (s : String) : List (Char × Char) :=
  (s.toList.map Char.toLower).zip ((s.toList.map Char.toLower).tail)

/-- Count vector of a bigram document against a vocabulary. -/
def countVec (doc : List (Char × Char)) (vocab : List (Char × Char)) : List ℕ :=
  vocab.map (fun g => doc.count g)

/-- The cosine-similarity step of `compute_similarity_scores`: fit a bigram
vocabulary on the two identifiers, count, and take the cosine of the two
count vectors. An empty vocabulary raises, as `CountVectorizer.fit` does. -/
noncomputable def cosineStep (a b : String) : Except String ℝ :=
  if (charBigrams a ++ charBigrams b).eraseDups = [] then
    Except.error ("empty vocabulary")
  else
    Except.ok (cosineSimilarityR
      (countVec (charBigrams a) ((charBigrams a ++ charBigrams b).eraseDups))
      (countVec (charBigrams b) ((charBigrams a ++ charBigrams b).eraseDups)))

theorem countVec_nil (vocab : List (Char × Char)) :
    dotNN (countVec [] vocab) (countVec [] vocab) = 0 := by
  induction vocab with
  | nil => simp [countVec, dotNN]
  | cons g vs ih => simpa [countVec, dotNN] using ih

theorem charBigrams_eq_nil {s : String} (h : s.toList.length < 2) :
    charBigrams s = [] := by
  unfold charBigrams
  match hs : s.toList with
  | [] => simp
  | [c] => simp
  | c1 :: c2 :: rest =>
    rw [hs] at h
    simp only [List.length_cons] at h
    exact absurd h (by omega)

/-!
## Similarity Profiler: the assembled score dictionary

`compute_similarity_scores` (src/main.py lines 69-93) builds the metric
dictionary in insertion order `levenshtein`, `jaro_winkler`,
`damerau_levenshtein`, `ratcliff_obershelp`, `cosine`. In the source the
four text metrics are computed before the cosine step; since the function
either returns the full dictionary or propagates the vectorizer's
exception, the observable result is as below.
-/

/-- The similarity profiler: metric dictionary or propagated exception. -/
noncomputable def compute_similarity_scores (a b : String) :
    Except String (List (String × ℝ)) :=
  match cosineStep a b with
  | Except.error e => Except.error e
  | Except.ok c => Except.ok
      [(("levenshtein"), ((levenshtein_metric a b : ℚ) : ℝ)),
       (("jaro_winkler"), ((jaro_winkler_similarity a b : ℚ) : ℝ)),
       (("damerau_levenshtein"), ((damerau_metric a b : ℚ) : ℝ)),
       (("ratcliff_obershelp"), ((ratcliff_obershelp a b : ℚ) : ℝ)),
       (("cosine"), c)]

/-- The score dictionary of a successful profiler run, `[]` on an exception. -/
def okScores (r : Except String (List (String × ℝ))) : List (String × ℝ) :=
  match r with
  | Except.ok d => d
  | Except.error _ => []

theorem compute_similarity_scores_bounds {a b : String} {d : List (String × ℝ)}
    (h : compute_similarity_scores a b = Except.ok d) :
    ∀ p ∈ d, 0 ≤ p.2 ∧ p.2 ≤ 1 := by
  unfold compute_similarity_scores at h
  cases hc : cosineStep a b with
  | error e => rw [hc] at h; exact absurd h (by simp)
  | ok c =>
    rw [hc] at h
    simp only [Except.ok.injEq] at h
    subst h
    have hcb : 0 ≤ c ∧ c ≤ 1 := by
      unfold cosineStep at hc
      split at hc
      · exact absurd hc (by simp)
      · simp only [Except.ok.injEq] at hc
        rw [← hc]
        exact cosineSimilarityR_bounds _ _
    intro p hp
    simp only [List.mem_cons, List.not_mem_nil, or_false] at hp
    rcases hp with h1 | h2 | h3 | h4 | h5
    · subst h1
      have hb := levenshtein_metric_bounds a b
      constructor
      · show (0:ℝ) ≤ ((levenshtein_metric a b : ℚ) : ℝ)
        exact_mod_cast hb.1
      · show ((levenshtein_metric a b : ℚ) : ℝ) ≤ 1
        exact_mod_cast hb.2
    · subst h2
      have hb := jaro_winkler_similarity_bounds a b
      constructor
      · show (0:ℝ) ≤ ((jaro_winkler_similarity a b : ℚ) : ℝ)
        exact_mod_cast hb.1
      · show ((jaro_winkler_similarity a b : ℚ) : ℝ) ≤ 1
        exact_mod_cast hb.2
    · subst h3
      have hb := damerau_metric_bounds a b
      constructor
      · show (0:ℝ) ≤ ((damerau_metric a b : ℚ) : ℝ)
        exact_mod_cast hb.1
      · show ((damerau_metric a b : ℚ) : ℝ) ≤ 1
        exact_mod_cast hb.2
    · subst h4
      have hb := ratcliff_obershelp_bounds a b
      constructor
      · show (0:ℝ) ≤ ((ratcliff_obershelp a b : ℚ) : ℝ)
        exact_mod_cast hb.1
      · show ((ratcliff_obershelp a b : ℚ) : ℝ) ≤ 1
        exact_mod_cast hb.2
    · subst h5
      exact hcb

/-!
## Score Aggregator

Embedding of `aggregate_scores` (src/main.py lines 96-107): fixed weight
table, weighted sum over the keys present in the score dictionary with
default weight 1 for unknown keys, divided by the total weight when that is
positive and 0 otherwise.
-/

/-- The fixed weight table of `aggregate_scores`. -/
def weightsList : List (String × ℚ) :=
  [(("state_match"), 10), (("levenshtein"), 1/2), (("jaro_winkler"), 1),
   (("damerau_levenshtein"), 1/2), (("ratcliff_obershelp"), 1), (("cosine"), 3/2)]

/-- The score aggregator. -/
noncomputable def aggregate_scores (scores : List (String × ℝ)) : ℝ :=
  if 0 < (weightsList.map (fun p => p.2)).sum then
    (scores.map (fun p => p.2 * ((dictGetD weightsList p.1 1 : ℚ) : ℝ))).sum /
      (((weightsList.map (fun p => p.2)).sum : ℚ) : ℝ)
  else 0

theorem aggregate_scores_formula (sm lev jw dl ro cos : ℝ) :
    aggregate_scores
      [(("state_match"), sm), (("levenshtein"), lev), (("jaro_winkler"), jw),
       (("damerau_levenshtein"), dl), (("ratcliff_obershelp"), ro), (("cosine"), cos)] =
    (10 * sm + (1/2) * lev + 1 * jw + (1/2) * dl + 1 * ro + (3/2) * cos) / (29/2) := by
  have w1 : dictGetD weightsList ("state_match") 1 = 10 := by simp [dictGetD, weightsList]
  have w2 : dictGetD weightsList ("levenshtein") 1 = 1/2 := by simp [dictGetD, weightsList]
  have w3 : dictGetD weightsList ("jaro_winkler") 1 = 1 := by simp [dictGetD, weightsList]
  have w4 : dictGetD weightsList ("damerau_levenshtein") 1 = 1/2 := by
    simp [dictGetD, weightsList]
  have w5 : dictGetD weightsList ("ratcliff_obershelp") 1 = 1 := by
    simp [dictGetD, weightsList]
  have w6 : dictGetD weightsList ("cosine") 1 = 3/2 := by simp [dictGetD, weightsList]
  have wt : (weightsList.map (fun p => p.2)).sum = 29/2 := by
    simp [weightsList]
    norm_num
  unfold aggregate_scores
  rw [wt]
  simp only [List.map_cons, List.map_nil, List.sum_cons, List.sum_nil, w1, w2, w3, w4, w5, w6]
  norm_num
  ring

/-!
## Data model and matrix construction

A resource carries its address, type, and the flattened `"path=value"`
token lists of its before and after states (the output contract of the
flattener, §6 of the design). `calculate_match_scores` (src/main.py lines
45-66) builds one row per destroyed resource — the row key is created by
`setdefault` even when no created resource exists — holding one score
dictionary per created resource of the same call. `main` (lines 116-133)
groups by type and merges the per-type matrices with Python's `dict`
merge. Identifier addresses are globally unique per side in well-formed
input; on duplicate `(destroy, create)` pairs this model replaces the
entry wholesale where the source would fold a stale `aggregated` value
into the rebuilt dictionary, a degenerate case outside the input contract.
-/

/-- A candidate pair's score dictionary. -/
abbrev ScoreDict (α : Type) := List (String × α)

/-- One matrix row: candidate added identifiers of one removed identifier. -/
abbrev MatrixRow (α : Type) := List (String × ScoreDict α)

/-- The candidate score matrix. -/
abbrev ScoreMatrix (α : Type) := List (String × MatrixRow α)

/-- A resource: address, type, flattened before and after state tokens. -/
structure Res where
  address : String
  rtype : String
  stateBefore : List String
  stateAfter : List String
deriving Repr, DecidableEq

/-- Structural overlap: the number of distinct flattened state tokens shared
by the removed item's before state and the added item's after state. -/
def stateMatch (d c : Res) : ℕ :=
  ((d.stateBefore.eraseDups).filter (fun t => c.stateAfter.contains t)).length

/-- One candidate pair's score dictionary: structural overlap, the five
similarity metrics, then the aggregated score of exactly those entries. -/
noncomputable def scoreEntry (sm : ℕ) (sims : List (String × ℝ)) : List (String × ℝ) :=
  (("state_match"), (sm : ℝ)) :: sims ++
    [(("aggregated"), aggregate_scores ((("state_match"), (sm : ℝ)) :: sims))]

/-- Score one candidate pair, propagating a profiler exception. -/
noncomputable def pairEntry (d c : Res) : Except String (List (String × ℝ)) :=
  match compute_similarity_scores d.address c.address with
  | Except.error e => Except.error e
  | Except.ok sims => Except.ok (scoreEntry (stateMatch d c) sims)

/-- Inner loop of `calculate_match_scores`: extend the row of destroyed
resource `d` with an entry for each created resource. -/
noncomputable def calcRow (d : Res) (row : MatrixRow ℝ) :
    List Res → Except String (MatrixRow ℝ)
  | [] => Except.ok row
  | c :: rest =>
    match pairEntry d c with
    | Except.error e => Except.error e
    | Except.ok entry => calcRow d (assocSet row c.address entry) rest

/-- Outer loop of `calculate_match_scores` over the destroyed resources. -/
noncomputable def calcRows (cs : List Res) :
    List Res → ScoreMatrix ℝ → Except String (ScoreMatrix ℝ)
  | [], m => Except.ok m
  | d :: rest, m =>
    match calcRow d (dictGetD m d.address []) cs with
    | Except.error e => Except.error e
    | Except.ok row => calcRows cs rest (assocSet m d.address row)

/-- `calculate_match_scores`: the per-type candidate score matrix. -/
noncomputable def calculate_match_scores (ds cs : List Res) :
    Except String (ScoreMatrix ℝ) :=
  calcRows cs ds []

/-- The destroyed resource types driving the per-type loop (`defaultdict`
key iteration). Processing a type a second time rebuilds and overwrites the
identical rows in place, so duplicates leave the final matrix unchanged and
the key list needs no deduplication. -/
def typesOf (rs : List Res) : List String :=
  rs.map (fun r => r.rtype)

/-- The resources of one type, in order (`destroyed_by_type[t]`). -/
def ofType (t : String) (rs : List Res) : List Res :=
  rs.filter (fun r => r.rtype == t)

/-- Python `dict` merge `m | mt`: existing keys are updated in place, new
keys appended in the right operand's order. -/
def dictMergeRight {β : Type} (m mt : List (String × β)) : List (String × β) :=
  mt.foldl (fun acc p => assocSet acc p.1 p.2) m

/-- The per-type matrix loop of `main` (src/main.py lines 128-133). -/
noncomputable def buildTypes (ds cs : List Res) :
    List String → ScoreMatrix ℝ → Except String (ScoreMatrix ℝ)
  | [], m => Except.ok m
  | t :: rest, m =>
    match calculate_match_scores (ofType t ds) (ofType t cs) with
    | Except.error e => Except.error e
    | Except.ok mt => buildTypes ds cs rest (dictMergeRight m mt)

/-- The full matrix-building phase of `main`. -/
noncomputable def buildMatrix (ds cs : List Res) : Except String (ScoreMatrix ℝ) :=
  buildTypes ds cs (typesOf ds) []

/-!
## Greedy Assignment Solver

Embedding of the solver loop of `main` (src/main.py lines 135-181). The
scan keeps the running best candidate; `none` plays the role of the initial
`float('-inf')` — the first entry always replaces it, and afterwards only a
strictly greater aggregated score does, so ties go to the first entry in
matrix iteration order. The solver is generic in the (linearly ordered)
score type: the matching claims do not depend on how scores were computed.
-/

section Solver

variable {α : Type} [LinearOrder α] [Zero α]

/-- `scores.get("aggregated", 0)` of one candidate entry. -/
def entryScore (d : ScoreDict α) : α := dictGetD d ("aggregated") 0

/-- One comparison of the scan (src/main.py lines 151-158). -/
def scanEntry (rd : String) (best : Option (String × String × α))
    (p : String × ScoreDict α) : Option (String × String × α) :=
  match best with
  | none => some (rd, p.1, entryScore p.2)
  | some b =>
    if b.2.2 < entryScore p.2 then some (rd, p.1, entryScore p.2) else best

/-- The scan for the highest-scoring remaining pair. -/
def findBest (m : ScoreMatrix α) : Option (String × String × α) :=
  m.foldl (fun best row => row.2.foldl (scanEntry row.1) best) none

/-- Candidate entries in matrix iteration order. -/
def entries (m : ScoreMatrix α) : List (String × String × ScoreDict α) :=
  m.bind (fun row => row.2.map (fun p => (row.1, p.1, p.2)))

/-- The scan step, reformulated over flattened entries. -/
def bstep (best : Option (String × String × α))
    (e : String × String × ScoreDict α) : Option (String × String × α) :=
  scanEntry e.1 best e.2

/-- Removal of the accepted added identifier from every row, dropping rows
left without candidates (src/main.py lines 167-174). -/
def removeCreate (m : ScoreMatrix α) (rc : String) : ScoreMatrix α :=
  (m.map (fun row => (row.1, row.2.filter (fun p => p.1 != rc)))).filter
    (fun row => !row.2.isEmpty)

/-- Removal of the accepted removed identifier's row (lines 176-178). -/
def removeDestroy (m : ScoreMatrix α) (rd : String) : ScoreMatrix α :=
  m.filter (fun row => row.1 != rd)

/-- The matrix after one acceptance round. -/
def stepMatrix (m : ScoreMatrix α) (rd rc : String) : ScoreMatrix α :=
  removeDestroy (removeCreate m rc) rd

theorem foldl_scan_entries (m : ScoreMatrix α) :
    ∀ (init : Option (String × String × α)),
      m.foldl (fun best row => row.2.foldl (scanEntry row.1) best) init =
      (entries m).foldl bstep init := by
  induction m with
  | nil => intro init; simp [entries]
  | cons row m ih =>
    intro init
    simp only [List.foldl_cons]
    rw [ih (row.2.foldl (scanEntry row.1) init)]
    have hsplit : entries (row :: m) =
        row.2.map (fun p => (row.1, p.1, p.2)) ++ entries m := by
      simp [entries]
    rw [hsplit, List.foldl_append]
    congr 1
    rw [List.foldl_map]
    rfl

theorem findBest_eq_foldl (m : ScoreMatrix α) :
    findBest m = (entries m).foldl bstep none :=
  foldl_scan_entries m none

theorem bstep_if (b : String × String × α) (e : String × String × ScoreDict α) :
    bstep (some b) e =
      if b.2.2 < entryScore e.2.2 then some (e.1, e.2.1, entryScore e.2.2)
      else some b := rfl

theorem foldl_bstep_isSome (l : List (String × String × ScoreDict α))
    (b : String × String × α) : ∃ c, l.foldl bstep (some b) = some c := by
  induction l generalizing b with
  | nil => exact ⟨b, rfl⟩
  | cons e l ih =>
    simp only [List.foldl_cons]
    rw [bstep_if]
    split
    · exact ih _
    · exact ih _

theorem findBest_none_iff (m : ScoreMatrix α) :
    findBest m = none ↔ entries m = [] := by
  rw [findBest_eq_foldl]
  constructor
  · intro h
    cases hl : entries m with
    | nil => rfl
    | cons e l =>
      rw [hl, List.foldl_cons,
        show bstep none e = some (e.1, e.2.1, entryScore e.2.2) from rfl] at h
      obtain ⟨c, hc⟩ := foldl_bstep_isSome l (e.1, e.2.1, entryScore e.2.2)
      rw [hc] at h
      exact absurd h (by simp)
  · intro h; rw [h]; rfl

theorem foldl_bstep_spec (l : List (String × String × ScoreDict α)) :
    ∀ (b : String × String × α),
      (l.foldl bstep (some b) = some b ∧ ∀ e ∈ l, entryScore e.2.2 ≤ b.2.2) ∨
      (∃ l1 e l2, l = l1 ++ e :: l2 ∧
        l.foldl bstep (some b) = some (e.1, e.2.1, entryScore e.2.2) ∧
        b.2.2 < entryScore e.2.2 ∧
        (∀ x ∈ l1, entryScore x.2.2 < entryScore e.2.2) ∧
        (∀ x ∈ l2, entryScore x.2.2 ≤ entryScore e.2.2)) := by
  induction l with
  | nil => intro b; left; simp
  | cons e0 l ih =>
    intro b
    by_cases h0 : b.2.2 < entryScore e0.2.2
    · have hstep : bstep (some b) e0 = some (e0.1, e0.2.1, entryScore e0.2.2) := by
        rw [bstep_if, if_pos h0]
      rcases ih (e0.1, e0.2.1, entryScore e0.2.2) with ⟨hfix, hall⟩ |
        ⟨l1, e, l2, heq, hres, hgt, hpre, hpost⟩
      · right
        refine ⟨[], e0, l, by simp, ?_, h0, by simp, ?_⟩
        · simp only [List.foldl_cons, hstep]
          exact hfix
        · intro x hx
          exact hall x hx
      · right
        refine ⟨e0 :: l1, e, l2, by simp [heq], ?_, ?_, ?_, hpost⟩
        · simp only [List.foldl_cons, hstep]
          exact hres
        · exact lt_trans h0 hgt
        · intro x hx
          rcases List.mem_cons.mp hx with rfl | hx2
          · exact hgt
          · exact hpre x hx2
    · have hstep : bstep (some b) e0 = some b := by
        rw [bstep_if, if_neg h0]
      rcases ih b with ⟨hfix, hall⟩ | ⟨l1, e, l2, heq, hres, hgt, hpre, hpost⟩
      · left
        refine ⟨by simp only [List.foldl_cons, hstep]; exact hfix, ?_⟩
        intro x hx
        rcases List.mem_cons.mp hx with rfl | hx2
        · exact le_of_not_lt h0
        · exact hall x hx2
      · right
        refine ⟨e0 :: l1, e, l2, by simp [heq], ?_, hgt, ?_, hpost⟩
        · simp only [List.foldl_cons, hstep]
          exact hres
        · intro x hx
          rcases List.mem_cons.mp hx with rfl | hx2
          · exact lt_of_le_of_lt (le_of_not_lt h0) hgt
          · exact hpre x hx2

theorem findBest_spec {m : ScoreMatrix α} {rd rc : String} {s : α}
    (h : findBest m = some (rd, rc, s)) :
    ∃ l1 d l2, entries m = l1 ++ (rd, rc, d) :: l2 ∧ entryScore d = s ∧
      (∀ x ∈ l1, entryScore x.2.2 < s) ∧
      (∀ x ∈ entries m, entryScore x.2.2 ≤ s) := by
  rw [findBest_eq_foldl] at h
  cases hl : entries m with
  | nil => rw [hl] at h; exact absurd h (by simp)
  | cons e0 l =>
    rw [hl] at h
    simp only [List.foldl_cons] at h
    have hstep : bstep none e0 = some (e0.1, e0.2.1, entryScore e0.2.2) := rfl
    rw [hstep] at h
    rcases foldl_bstep_spec l (e0.1, e0.2.1, entryScore e0.2.2) with ⟨hfix, hall⟩ |
      ⟨l1, e, l2, heq, hres, hgt, hpre, hpost⟩
    · rw [hfix] at h
      have h1 : e0.1 = rd := congrArg (fun t => t.1) (Option.some.inj h)
      have h2 : e0.2.1 = rc := congrArg (fun t => t.2.1) (Option.some.inj h)
      have h3 : entryScore e0.2.2 = s := congrArg (fun t => t.2.2) (Option.some.inj h)
      refine ⟨[], e0.2.2, l, ?_, h3, by simp, ?_⟩
      · rw [← h1, ← h2]
        simp
      · intro x hx
        rcases List.mem_cons.mp hx with rfl | hx2
        · exact le_of_eq h3
        · exact le_trans (hall x hx2) (le_of_eq h3)
    · rw [hres] at h
      have h1 : e.1 = rd := congrArg (fun t => t.1) (Option.some.inj h)
      have h2 : e.2.1 = rc := congrArg (fun t => t.2.1) (Option.some.inj h)
      have h3 : entryScore e.2.2 = s := congrArg (fun t => t.2.2) (Option.some.inj h)
      refine ⟨e0 :: l1, e.2.2, l2, ?_, h3, ?_, ?_⟩
      · rw [← h1, ← h2]
        simp [heq]
      · intro x hx
        rcases List.mem_cons.mp hx with rfl | hx2
        · exact h3 ▸ hgt
        · exact h3 ▸ hpre x hx2
      · intro x hx
        rw [heq] at hx
        rcases List.mem_cons.mp hx with rfl | hx2
        · exact h3 ▸ le_of_lt hgt
        · rcases List.mem_append.mp hx2 with hx3 | hx4
          · exact le_of_lt (h3 ▸ hpre x hx3)
          · rcases List.mem_cons.mp hx4 with rfl | hx5
            · exact le_of_eq h3
            · exact h3 ▸ hpost x hx5

theorem entries_mem_key {m : ScoreMatrix α} {e : String × String × ScoreDict α}
    (h : e ∈ entries m) :
    ∃ row ∈ m, row.1 = e.1 ∧ (e.2.1, e.2.2) ∈ row.2 := by
  simp only [entries, List.mem_flatMap, List.mem_map] at h
  obtain ⟨row, hrow, p, hp, hpe⟩ := h
  refine ⟨row, hrow, ?_, ?_⟩
  · rw [← hpe]
  · have h1 : e.2.1 = p.1 := by rw [← hpe]
    have h2 : e.2.2 = p.2 := by rw [← hpe]
    rw [h1, h2]
    exact hp

theorem entries_removeCreate (m : ScoreMatrix α) (rc : String) :
    entries (removeCreate m rc) = (entries m).filter (fun e => e.2.1 != rc) := by
  induction m with
  | nil => rfl
  | cons row m ih =>
    have hsplit : entries (row :: m) =
        row.2.map (fun p => (row.1, p.1, p.2)) ++ entries m := by
      simp [entries]
    have hfm : (row.2.map (fun p => ((row.1, p.1, p.2) : String × String × ScoreDict α))).filter
        (fun e => e.2.1 != rc) =
        (row.2.filter (fun p => p.1 != rc)).map (fun p => (row.1, p.1, p.2)) := by
      rw [List.filter_map]
      rfl
    by_cases hrow : (row.2.filter (fun p => p.1 != rc)).isEmpty
    · have hnil : row.2.filter (fun p => p.1 != rc) = [] := by
        simpa [List.isEmpty_iff] using hrow
      have hrc : removeCreate (row :: m) rc = removeCreate m rc := by
        unfold removeCreate
        simp only [List.map_cons, List.filter_cons, hrow]
        simp
      rw [hrc, ih, hsplit, List.filter_append, hfm, hnil]
      simp
    · have hrc : removeCreate (row :: m) rc =
          (row.1, row.2.filter (fun p => p.1 != rc)) :: removeCreate m rc := by
        unfold removeCreate
        simp only [List.map_cons, List.filter_cons, hrow]
        simp
      rw [hrc, hsplit, List.filter_append, hfm]
      have h2 : entries ((row.1, row.2.filter (fun p => p.1 != rc)) :: removeCreate m rc) =
          (row.2.filter (fun p => p.1 != rc)).map (fun p => (row.1, p.1, p.2)) ++
            entries (removeCreate m rc) := by
        simp [entries]
      rw [h2, ih]

theorem entries_removeDestroy (m : ScoreMatrix α) (rd : String) :
    entries (removeDestroy m rd) = (entries m).filter (fun e => e.1 != rd) := by
  induction m with
  | nil => rfl
  | cons row m ih =>
    have hsplit : entries (row :: m) =
        row.2.map (fun p => (row.1, p.1, p.2)) ++ entries m := by
      simp [entries]
    have hfm : (row.2.map (fun p => ((row.1, p.1, p.2) : String × String × ScoreDict α))).filter
        (fun e => e.1 != rd) =
        (row.2.filter (fun _ => row.1 != rd)).map (fun p => (row.1, p.1, p.2)) := by
      rw [List.filter_map]
      rfl
    by_cases hkey : row.1 != rd
    · have hrd : removeDestroy (row :: m) rd = row :: removeDestroy m rd := by
        unfold removeDestroy
        simp [List.filter_cons, hkey]
      rw [hrd, hsplit, List.filter_append, hfm]
      have h2 : entries (row :: removeDestroy m rd) =
          row.2.map (fun p => (row.1, p.1, p.2)) ++ entries (removeDestroy m rd) := by
        simp [entries]
      rw [h2, ih]
      congr 1
      have : row.2.filter (fun _ => row.1 != rd) = row.2 := by
        simp [List.filter_eq_self, hkey]
      rw [this]
    · have hrd : removeDestroy (row :: m) rd = removeDestroy m rd := by
        unfold removeDestroy
        simp only [List.filter_cons]
        simp only [Bool.not_eq_true] at hkey
        simp [hkey]
      rw [hrd, hsplit, List.filter_append, hfm, ih]
      have : row.2.filter (fun _ => row.1 != rd) = [] := by
        simp only [Bool.not_eq_true] at hkey
        simp [List.filter_eq_nil_iff, hkey]
      rw [this]
      simp

theorem entries_stepMatrix (m : ScoreMatrix α) (rd rc : String) :
    entries (stepMatrix m rd rc) =
      (entries m).filter (fun e => e.1 != rd && e.2.1 != rc) := by
  unfold stepMatrix
  rw [entries_removeDestroy, entries_removeCreate, List.filter_filter]

theorem length_filter_lt {β : Type} (p : β → Bool) (l : List β) (x : β)
    (hx : x ∈ l) (hpx : p x = false) : (l.filter p).length < l.length := by
  induction l with
  | nil => cases hx
  | cons y l ih =>
    rcases List.mem_cons.mp hx with rfl | hx2
    · rw [List.filter_cons, hpx]
      simp only [Bool.false_eq_true, if_false]
      have := List.length_filter_le p l
      simp only [List.length_cons]
      omega
    · rw [List.filter_cons]
      by_cases hy : p y
      · rw [if_pos hy]
        have := ih hx2
        simp only [List.length_cons]
        omega
      · rw [if_neg hy]
        have := ih hx2
        simp only [List.length_cons]
        omega

theorem stepMatrix_length_lt {m : ScoreMatrix α} {rd : String} (rc : String)
    (h : ∃ row ∈ m, row.1 = rd) : (stepMatrix m rd rc).length < m.length := by
  obtain ⟨row, hrow, hkey⟩ := h
  unfold stepMatrix removeDestroy removeCreate
  have hmem : ((row.1, row.2.filter (fun p => p.1 != rc)) : String × MatrixRow α) ∈
      m.map (fun row => (row.1, row.2.filter (fun p => p.1 != rc))) :=
    List.mem_map_of_mem _ hrow
  by_cases hp : (row.2.filter (fun p => p.1 != rc)).isEmpty
  · have h1 := length_filter_lt
      (fun (a : String × MatrixRow α) => !a.2.isEmpty)
      (m.map (fun row => (row.1, row.2.filter (fun p => p.1 != rc)))) _ hmem
      (by simp [hp])
    have h2 := List.length_filter_le (fun (a : String × MatrixRow α) => a.1 != rd)
      ((m.map (fun row => (row.1, row.2.filter (fun p => p.1 != rc)))).filter
        (fun a => !a.2.isEmpty))
    have h3 := List.length_map m (fun row => (row.1, row.2.filter (fun p => p.1 != rc)))
    omega
  · have hmem2 : ((row.1, row.2.filter (fun p => p.1 != rc)) : String × MatrixRow α) ∈
        (m.map (fun row => (row.1, row.2.filter (fun p => p.1 != rc)))).filter
          (fun a => !a.2.isEmpty) :=
      List.mem_filter.mpr ⟨hmem, by simpa using hp⟩
    have h1 := length_filter_lt (fun (a : String × MatrixRow α) => a.1 != rd) _ _ hmem2
      (by simp [hkey])
    have h2 := List.length_filter_le (fun (a : String × MatrixRow α) => !a.2.isEmpty)
      (m.map (fun row => (row.1, row.2.filter (fun p => p.1 != rc))))
    have h3 := List.length_map m (fun row => (row.1, row.2.filter (fun p => p.1 != rc)))
    omega

theorem findBest_key_mem {m : ScoreMatrix α} {rd rc : String} {s : α}
    (h : findBest m = some (rd, rc, s)) : ∃ row ∈ m, row.1 = rd := by
  obtain ⟨l1, d, l2, heq, _, _, _⟩ := findBest_spec h
  have hmem : ((rd, rc, d) : String × String × ScoreDict α) ∈ entries m := by
    rw [heq]; simp
  obtain ⟨row, hrow, hr1, _⟩ := entries_mem_key hmem
  exact ⟨row, hrow, hr1⟩

/-- The greedy assignment loop of `main` (src/main.py lines 145-181): while
the matrix is nonempty, pick the best remaining pair, record it, delete its
row and column, and discard the two identifiers from the unmatched sets. -/
def solveAux (m : ScoreMatrix α) (acc : List (String × String × α))
    (ud uc : List String) :
    List (String × String × α) × List String × List String :=
  if m.isEmpty then (acc, ud, uc)
  else
    match hfb : findBest m with
    | none => (acc, ud, uc)
    | some (rd, rc, s) =>
      solveAux (stepMatrix m rd rc) (acc ++ [(rd, rc, s)])
        (ud.filter (fun a => a != rd)) (uc.filter (fun a => a != rc))
termination_by m.length
decreasing_by
  exact stepMatrix_length_lt rc (findBest_key_mem hfb)

/-- `set(match_scores.keys())`. Python sets are used only through membership
and discard here, so a set is modelled as the list of its elements. -/
def matrixKeys (m : ScoreMatrix α) : List String :=
  m.map (fun row => row.1)

/-- All added identifiers appearing in any row (the accumulated
`unmatched_res_create` set), with the same set-as-list modelling. -/
def innerKeys (m : ScoreMatrix α) : List String :=
  m.flatMap (fun row => row.2.map (fun p => p.1))

/-- The whole solver: unmatched sets seeded from the matrix, then the loop.
Returns (best_matches, unmatched_res_destroy, unmatched_res_create). -/
def runSolver (m : ScoreMatrix α) :
    List (String × String × α) × List String × List String :=
  solveAux m [] (matrixKeys m) (innerKeys m)

/-- The number of acceptance rounds the loop performs. -/
def loopRounds (m : ScoreMatrix α) : ℕ :=
  if m.isEmpty then 0
  else
    match hfb : findBest m with
    | none => 0
    | some (rd, rc, _) => 1 + loopRounds (stepMatrix m rd rc)
termination_by m.length
decreasing_by
  exact stepMatrix_length_lt rc (findBest_key_mem hfb)

end Solver

/-- The matching pipeline of `main` on preprocessed resources: build the
per-type score matrices, merge them, and run the greedy solver. -/
noncomputable def mainSolve (ds cs : List Res) :
    Except String (List (String × String × ℝ) × List String × List String) :=
  match buildMatrix ds cs with
  | Except.error e => Except.error e
  | Except.ok m => Except.ok (runSolver m)

/-!
## Solver loop invariants
-/

section SolverLemmas

variable {α : Type} [LinearOrder α] [Zero α]

theorem stepMatrix_key_mem {m : ScoreMatrix α} {rd rc : String}
    {row : String × MatrixRow α} (h : row ∈ stepMatrix m rd rc) :
    (∃ row0 ∈ m, row0.1 = row.1) ∧ row.1 ≠ rd := by
  unfold stepMatrix removeDestroy removeCreate at h
  obtain ⟨h1, h2⟩ := List.mem_filter.mp h
  obtain ⟨h3, _⟩ := List.mem_filter.mp h1
  obtain ⟨row0, hrow0, heq⟩ := List.mem_map.mp h3
  constructor
  · exact ⟨row0, hrow0, by rw [← heq]⟩
  · simpa using h2

theorem entries_snd_mem_innerKeys {m : ScoreMatrix α}
    {e : String × String × ScoreDict α} (h : e ∈ entries m) :
    e.2.1 ∈ innerKeys m := by
  obtain ⟨row, hrow, h1, h2⟩ := entries_mem_key h
  unfold innerKeys
  rw [List.mem_flatMap]
  exact ⟨row, hrow, List.mem_map.mpr ⟨(e.2.1, e.2.2), h2, rfl⟩⟩

theorem innerKeys_eq_nil {m : ScoreMatrix α} (h : entries m = []) :
    innerKeys m = [] := by
  unfold innerKeys
  unfold entries at h
  rw [List.flatMap_eq_nil_iff] at h ⊢
  intro row hrow
  have := h row hrow
  simpa using this

theorem solveAux_none {m : ScoreMatrix α} (h : findBest m = none)
    (acc : List (String × String × α)) (ud uc : List String) :
    solveAux m acc ud uc = (acc, ud, uc) := by
  rw [solveAux]
  split
  · rfl
  · split
    · rfl
    · rename_i heq
      rw [h] at heq
      exact absurd heq (by simp)

/-- The unmatched/matched bookkeeping invariant of the solver loop: the
matched and unmatched identifiers of each side cover the universe of that
side and are disjoint. -/
def PartitionOut (acc : List (String × String × α)) (ud uc Ud Uc : List String) :
    Prop :=
  (∀ a, (a ∈ acc.map (fun t => t.1) ∨ a ∈ ud) ↔ a ∈ Ud) ∧
  (∀ a, (a ∈ acc.map (fun t => t.2.1) ∨ a ∈ uc) ↔ a ∈ Uc) ∧
  (∀ a, ¬(a ∈ acc.map (fun t => t.1) ∧ a ∈ ud)) ∧
  (∀ a, ¬(a ∈ acc.map (fun t => t.2.1) ∧ a ∈ uc))

theorem mem_filter_ne {l : List String} {a x : String} :
    a ∈ l.filter (fun y => y != x) ↔ a ∈ l ∧ a ≠ x := by
  rw [List.mem_filter]
  simp

theorem mem_map_fst_append (acc : List (String × String × α)) (rd rc : String)
    (s : α) (a : String) :
    a ∈ (acc ++ [(rd, rc, s)]).map (fun t => t.1) ↔
      a ∈ acc.map (fun t => t.1) ∨ a = rd := by
  rw [List.map_append, List.mem_append]
  simp [eq_comm]

theorem mem_map_snd_append (acc : List (String × String × α)) (rd rc : String)
    (s : α) (a : String) :
    a ∈ (acc ++ [(rd, rc, s)]).map (fun t => t.2.1) ↔
      a ∈ acc.map (fun t => t.2.1) ∨ a = rc := by
  rw [List.map_append, List.mem_append]
  simp [eq_comm]

theorem partition_step {acc : List (String × String × α)} {ud uc Ud Uc : List String}
    {rd rc : String} {s : α} (hpart : PartitionOut acc ud uc Ud Uc)
    (hrd : rd ∈ ud) (hrc : rc ∈ uc) :
    PartitionOut (acc ++ [(rd, rc, s)]) (ud.filter (fun a => a != rd))
      (uc.filter (fun a => a != rc)) Ud Uc := by
  obtain ⟨h1, h2, h3, h4⟩ := hpart
  refine ⟨?_, ?_, ?_, ?_⟩
  · intro a
    rw [mem_map_fst_append, mem_filter_ne]
    constructor
    · rintro ((ha | rfl) | ⟨ha, _⟩)
      · exact (h1 a).mp (Or.inl ha)
      · exact (h1 a).mp (Or.inr hrd)
      · exact (h1 a).mp (Or.inr ha)
    · intro ha
      rcases (h1 a).mpr ha with hb | hb
      · exact Or.inl (Or.inl hb)
      · by_cases har : a = rd
        · exact Or.inl (Or.inr har)
        · exact Or.inr ⟨hb, har⟩
  · intro a
    rw [mem_map_snd_append, mem_filter_ne]
    constructor
    · rintro ((ha | rfl) | ⟨ha, _⟩)
      · exact (h2 a).mp (Or.inl ha)
      · exact (h2 a).mp (Or.inr hrc)
      · exact (h2 a).mp (Or.inr ha)
    · intro ha
      rcases (h2 a).mpr ha with hb | hb
      · exact Or.inl (Or.inl hb)
      · by_cases har : a = rc
        · exact Or.inl (Or.inr har)
        · exact Or.inr ⟨hb, har⟩
  · intro a
    rw [mem_map_fst_append, mem_filter_ne]
    rintro ⟨ha | rfl, hb, hne⟩
    · exact h3 a ⟨ha, hb⟩
    · exact hne rfl
  · intro a
    rw [mem_map_snd_append, mem_filter_ne]
    rintro ⟨ha | rfl, hb, hne⟩
    · exact h4 a ⟨ha, hb⟩
    · exact hne rfl

theorem solveAux_partition_aux (Ud Uc : List String) (n : ℕ) :
    ∀ (m : ScoreMatrix α) (acc : List (String × String × α)) (ud uc : List String),
      m.length ≤ n →
      PartitionOut acc ud uc Ud Uc →
      (∀ row ∈ m, row.1 ∈ ud) →
      (∀ e ∈ entries m, e.2.1 ∈ uc) →
      PartitionOut (solveAux m acc ud uc).1 (solveAux m acc ud uc).2.1
        (solveAux m acc ud uc).2.2 Ud Uc := by
  induction n using Nat.strong_induction_on with
  | _ n ih =>
  intro m acc ud uc hn hpart hud huc
  rw [solveAux]
  split
  · exact hpart
  · split
    · exact hpart
    · rename_i rd rc s hfb
      obtain ⟨row, hrow, hkey⟩ := findBest_key_mem hfb
      have hrd : rd ∈ ud := hkey ▸ hud row hrow
      have hrc : rc ∈ uc := by
        obtain ⟨l1, d, l2, heq, _, _, _⟩ := findBest_spec hfb
        have hmem : ((rd, rc, d) : String × String × ScoreDict α) ∈ entries m := by
          rw [heq]; simp
        exact huc _ hmem
      have hlt := stepMatrix_length_lt rc (findBest_key_mem hfb)
      refine ih (stepMatrix m rd rc).length (by omega) _ _ _ _ le_rfl
        (partition_step hpart hrd hrc) ?_ ?_
      · intro row2 hrow2
        obtain ⟨⟨row0, hrow0, hk0⟩, hne⟩ := stepMatrix_key_mem hrow2
        rw [mem_filter_ne]
        exact ⟨hk0 ▸ hud row0 hrow0, hne⟩
      · intro e he
        rw [entries_stepMatrix] at he
        obtain ⟨he1, he2⟩ := List.mem_filter.mp he
        simp only [Bool.and_eq_true, bne_iff_ne] at he2
        rw [mem_filter_ne]
        exact ⟨huc e he1, he2.2⟩

theorem runSolver_partition (m : ScoreMatrix α) :
    PartitionOut (runSolver m).1 (runSolver m).2.1 (runSolver m).2.2
      (matrixKeys m) (innerKeys m) := by
  unfold runSolver
  refine solveAux_partition_aux (matrixKeys m) (innerKeys m) m.length m [] _ _
    le_rfl ⟨?_, ?_, ?_, ?_⟩ ?_ ?_
  · intro a; simp
  · intro a; simp
  · intro a; simp
  · intro a; simp
  · intro row hrow
    exact List.mem_map_of_mem _ hrow
  · intro e he
    exact entries_snd_mem_innerKeys he

theorem loopRounds_le_aux (n : ℕ) :
    ∀ (m : ScoreMatrix α), m.length ≤ n → loopRounds m ≤ m.length := by
  induction n using Nat.strong_induction_on with
  | _ n ih =>
  intro m hn
  rw [loopRounds]
  split
  · omega
  · split
    · omega
    · rename_i rd rc s hfb
      have hlt := stepMatrix_length_lt rc (findBest_key_mem hfb)
      have h2 := ih (stepMatrix m rd rc).length (by omega) _ le_rfl
      omega

theorem loopRounds_le (m : ScoreMatrix α) : loopRounds m ≤ m.length :=
  loopRounds_le_aux m.length m le_rfl

end SolverLemmas

/-!
## Construction lemmas: which keys and rows the built matrix contains
-/

theorem assocSet_ne_nil {β : Type} (d : List (String × β)) (k : String) (v : β) :
    assocSet d k v ≠ [] := by
  unfold assocSet
  split
  · rename_i hany
    cases d with
    | nil => simp at hany
    | cons p rest => simp
  · simp

theorem assocSet_mem {β : Type} {d : List (String × β)} {k : String} {v : β}
    {row : String × β} (h : row ∈ assocSet d k v) : row ∈ d ∨ row = (k, v) := by
  unfold assocSet at h
  split at h
  · obtain ⟨p, hp, hpe⟩ := List.mem_map.mp h
    by_cases hpk : p.1 = k
    · right
      rw [← hpe, if_pos hpk]
    · left
      rw [← hpe, if_neg hpk]
      exact hp
  · rcases List.mem_append.mp h with h1 | h2
    · exact Or.inl h1
    · right
      simpa using h2

theorem assocSet_key_mem {β : Type} (d : List (String × β)) (k : String) (v : β)
    (a : String) :
    a ∈ (assocSet d k v).map (fun p => p.1) ↔ a ∈ d.map (fun p => p.1) ∨ a = k := by
  unfold assocSet
  split
  · rename_i hany
    simp only [List.any_eq_true, decide_eq_true_eq] at hany
    obtain ⟨q, hq, hqk⟩ := hany
    simp only [List.map_map, List.mem_map, Function.comp]
    constructor
    · rintro ⟨p, hp, hpe⟩
      by_cases hpk : p.1 = k
      · right
        rw [if_pos hpk] at hpe
        rw [← hpe]
      · left
        rw [if_neg hpk] at hpe
        exact ⟨p, hp, hpe⟩
    · rintro (⟨p, hp, hpe⟩ | rfl)
      · refine ⟨p, hp, ?_⟩
        by_cases hpk : p.1 = k
        · rw [if_pos hpk]
          rw [← hpe, hpk]
        · rw [if_neg hpk]
          exact hpe
      · exact ⟨q, hq, by rw [if_pos hqk]⟩
  · simp only [List.map_append, List.mem_append, List.map_cons, List.map_nil,
      List.mem_cons, List.not_mem_nil, or_false]

theorem dictGetD_mem {β : Type} (d : List (String × β)) (k : String) (v0 : β) :
    dictGetD d k v0 = v0 ∨ (k, dictGetD d k v0) ∈ d := by
  induction d with
  | nil => left; rfl
  | cons p rest ih =>
    rw [dictGetD]
    by_cases hpk : p.1 = k
    · rw [if_pos hpk]
      right
      rw [← hpk]
      exact List.mem_cons.mpr (Or.inl rfl)
    · rw [if_neg hpk]
      rcases ih with h1 | h2
      · exact Or.inl h1
      · exact Or.inr (List.mem_cons_of_mem _ h2)

theorem calcRow_nil (d : Res) (row : MatrixRow ℝ) : calcRow d row [] = Except.ok row :=
  rfl

theorem calcRow_ne_nil {d : Res} {cs : List Res} :
    ∀ {row row' : MatrixRow ℝ}, calcRow d row cs = Except.ok row' → cs ≠ [] →
      row' ≠ [] := by
  induction cs with
  | nil => intro row row' _ hcs; exact absurd rfl hcs
  | cons c rest ih =>
    intro row row' h _
    rw [calcRow.eq_def] at h
    simp only [] at h
    cases hpe : pairEntry d c with
    | error e => rw [hpe] at h; exact absurd h (by simp)
    | ok entry =>
      simp only [hpe] at h
      cases rest with
      | nil =>
        rw [calcRow_nil] at h
        simp only [Except.ok.injEq] at h
        rw [← h]
        exact assocSet_ne_nil _ _ _
      | cons c2 rest2 => exact ih h (by simp)

theorem calcRows_keys {cs : List Res} :
    ∀ (ds : List Res) (m0 m : ScoreMatrix ℝ), calcRows cs ds m0 = Except.ok m →
      ∀ a, a ∈ m.map (fun r => r.1) ↔
        a ∈ m0.map (fun r => r.1) ∨ ∃ d ∈ ds, d.address = a := by
  intro ds
  induction ds with
  | nil =>
    intro m0 m h a
    rw [calcRows] at h
    simp only [Except.ok.injEq] at h
    subst h
    simp
  | cons d rest ih =>
    intro m0 m h a
    rw [calcRows] at h
    cases hcr : calcRow d (dictGetD m0 d.address []) cs with
    | error e => simp only [hcr] at h; exact absurd h (by simp)
    | ok row =>
      simp only [hcr] at h
      rw [ih _ _ h a, assocSet_key_mem]
      constructor
      · rintro ((h1 | h2) | ⟨d2, hd2, he⟩)
        · exact Or.inl h1
        · exact Or.inr ⟨d, List.mem_cons_self d rest, h2.symm⟩
        · exact Or.inr ⟨d2, List.mem_cons_of_mem d hd2, he⟩
      · rintro (h1 | ⟨d2, hd2, he⟩)
        · exact Or.inl (Or.inl h1)
        · rcases List.mem_cons.mp hd2 with rfl | hd3
          · exact Or.inl (Or.inr he.symm)
          · exact Or.inr ⟨d2, hd3, he⟩

theorem calcRows_rows {cs : List Res} :
    ∀ (ds : List Res) (m0 m : ScoreMatrix ℝ), calcRows cs ds m0 = Except.ok m →
      (∀ row ∈ m0, (row.2 = [] ↔ cs = [])) →
      ∀ row ∈ m, (row.2 = [] ↔ cs = []) := by
  intro ds
  induction ds with
  | nil =>
    intro m0 m h hm0
    rw [calcRows] at h
    simp only [Except.ok.injEq] at h
    subst h
    exact hm0
  | cons d rest ih =>
    intro m0 m h hm0
    rw [calcRows] at h
    cases hcr : calcRow d (dictGetD m0 d.address []) cs with
    | error e => simp only [hcr] at h; exact absurd h (by simp)
    | ok row =>
      simp only [hcr] at h
      refine ih _ _ h ?_
      intro row2 hrow2
      rcases assocSet_mem hrow2 with h1 | h2
      · exact hm0 row2 h1
      · subst h2
        cases hcs : cs with
        | nil =>
          rw [hcs] at hcr
          rw [calcRow_nil] at hcr
          simp only [Except.ok.injEq] at hcr
          show row = [] ↔ ([] : List Res) = []
          have hrow0 : dictGetD m0 d.address ([] : MatrixRow ℝ) = [] := by
            rcases dictGetD_mem m0 d.address ([] : MatrixRow ℝ) with hg | hg
            · exact hg
            · exact (hm0 _ hg).mpr hcs
          rw [← hcr, hrow0]
          simp
        | cons c rest2 =>
          rw [hcs] at hcr
          show row = [] ↔ (c :: rest2 : List Res) = []
          constructor
          · intro hnil
            exact absurd hnil (calcRow_ne_nil hcr (by simp))
          · intro hfalse; exact absurd hfalse (by simp)

theorem calculate_match_scores_keys {ds cs : List Res} {m : ScoreMatrix ℝ}
    (h : calculate_match_scores ds cs = Except.ok m) :
    ∀ a, a ∈ m.map (fun r => r.1) ↔ ∃ d ∈ ds, d.address = a := by
  intro a
  rw [calcRows_keys ds [] m h a]
  simp

theorem calculate_match_scores_rows {ds cs : List Res} {m : ScoreMatrix ℝ}
    (h : calculate_match_scores ds cs = Except.ok m) :
    ∀ row ∈ m, (row.2 = [] ↔ cs = []) :=
  calcRows_rows ds [] m h (by intro row hrow; cases hrow)

theorem dictMergeRight_mem {β : Type} {mt : List (String × β)} :
    ∀ {m : List (String × β)} {row : String × β}, row ∈ dictMergeRight m mt →
      row ∈ m ∨ row ∈ mt := by
  induction mt with
  | nil => intro m row h; exact Or.inl h
  | cons p rest ih =>
    intro m row h
    rcases ih h with h1 | h2
    · rcases assocSet_mem h1 with h3 | h4
      · exact Or.inl h3
      · right
        rw [h4]
        simp
    · exact Or.inr (List.mem_cons_of_mem _ h2)

theorem dictMergeRight_key_mem {β : Type} (mt : List (String × β)) :
    ∀ (m : List (String × β)) (a : String),
      a ∈ (dictMergeRight m mt).map (fun p => p.1) ↔
        a ∈ m.map (fun p => p.1) ∨ a ∈ mt.map (fun p => p.1) := by
  induction mt with
  | nil => intro m a; simp [dictMergeRight]
  | cons p rest ih =>
    intro m a
    have hstep : dictMergeRight m (p :: rest) = dictMergeRight (assocSet m p.1 p.2) rest := rfl
    rw [hstep, ih, assocSet_key_mem]
    simp only [List.map_cons, List.mem_cons]
    tauto

theorem buildTypes_keys {ds cs : List Res} :
    ∀ (ts : List String) (m0 m : ScoreMatrix ℝ), buildTypes ds cs ts m0 = Except.ok m →
      ∀ a, a ∈ m.map (fun r => r.1) ↔
        a ∈ m0.map (fun r => r.1) ∨ ∃ t ∈ ts, ∃ d ∈ ofType t ds, d.address = a := by
  intro ts
  induction ts with
  | nil =>
    intro m0 m h a
    rw [buildTypes] at h
    simp only [Except.ok.injEq] at h
    subst h
    simp
  | cons t rest ih =>
    intro m0 m h a
    rw [buildTypes] at h
    cases hct : calculate_match_scores (ofType t ds) (ofType t cs) with
    | error e => simp only [hct] at h; exact absurd h (by simp)
    | ok mt =>
      simp only [hct] at h
      rw [ih _ _ h a, dictMergeRight_key_mem, calculate_match_scores_keys hct a]
      simp only [List.mem_cons]
      constructor
      · rintro ((h1 | h2) | ⟨t2, ht2, hd⟩)
        · exact Or.inl h1
        · exact Or.inr ⟨t, Or.inl rfl, h2⟩
        · exact Or.inr ⟨t2, Or.inr ht2, hd⟩
      · rintro (h1 | ⟨t2, ht2 | ht3, hd⟩)
        · exact Or.inl (Or.inl h1)
        · exact Or.inl (Or.inr (ht2 ▸ hd))
        · exact Or.inr ⟨t2, ht3, hd⟩

theorem buildMatrix_keys {ds cs : List Res} {m : ScoreMatrix ℝ}
    (h : buildMatrix ds cs = Except.ok m) :
    ∀ a, a ∈ m.map (fun r => r.1) ↔ ∃ d ∈ ds, d.address = a := by
  intro a
  rw [buildTypes_keys (typesOf ds) [] m h a]
  simp only [List.map_nil, List.not_mem_nil, false_or]
  constructor
  · rintro ⟨t, _, d, hd, ha⟩
    exact ⟨d, List.mem_of_mem_filter hd, ha⟩
  · rintro ⟨d, hd, ha⟩
    refine ⟨d.rtype, ?_, d, ?_, ha⟩
    · unfold typesOf
      exact List.mem_map_of_mem _ hd
    · unfold ofType
      rw [List.mem_filter]
      exact ⟨hd, by simp⟩



/-!
## Claim theorems

One theorem per claim of the specification, with concrete witnesses and
counterexamples. Sample values used by witnesses follow.
-/

/-- A sample score matrix over `ℚ` with a strict maximum. -/
def sampleMatrixA : ScoreMatrix ℚ :=
  [(("d1"), [(("c1"), [(("aggregated"), 3)]), (("c2"), [(("aggregated"), 7)])]),
   (("d2"), [(("c1"), [(("aggregated"), 7)])])]

/-- A sample score matrix over `ℚ` where a worse pair shares an identifier
with the best pair. -/
def sampleMatrixB : ScoreMatrix ℚ :=
  [(("d1"), [(("c1"), [(("aggregated"), 5)]), (("c2"), [(("aggregated"), 2)])]),
   (("d2"), [(("c1"), [(("aggregated"), 4)])])]

/-- A sample two-row structural matrix over `ℝ` (scores never inspected). -/
noncomputable def sampleMatrixC : ScoreMatrix ℝ :=
  [(("d1"), [(("c1"), [])]), (("d2"), [(("c2"), [])])]

/-- A sample destroyed resource whose type has no created counterpart. -/
def sampleDestroyed : Res := ⟨("d"), ("t1"), [], []⟩

/-- A sample created resource whose type has no destroyed counterpart. -/
def sampleCreated : Res := ⟨("c"), ("t2"), [], []⟩

/-- Sample same-type resources with two-character addresses, so the whole
scoring pipeline succeeds on them. -/
def sampleResA : Res := ⟨("aa"), ("t"), [], []⟩

/-- Second resource of the successful-scoring sample pair. -/
def sampleResB : Res := ⟨("ab"), ("t"), [], []⟩

/-- C1: in every round on a matrix still holding candidates, the accepted
pair is the first candidate in matrix iteration order carrying the maximal
aggregated score (strictly above everything before it, at least everything
after it), and the next matrix holds exactly the candidates sharing neither
the accepted removed identifier nor the accepted added identifier. -/
theorem claim_C1_greedy_round (m : ScoreMatrix ℚ) (rd rc : String) (s : ℚ)
    (h : findBest m = some (rd, rc, s)) :
    (∃ l1 d l2, entries m = l1 ++ (rd, rc, d) :: l2 ∧ entryScore d = s ∧
      (∀ x ∈ l1, entryScore x.2.2 < s) ∧
      (∀ x ∈ entries m, entryScore x.2.2 ≤ s)) ∧
    entries (stepMatrix m rd rc) =
      (entries m).filter (fun e => e.1 != rd && e.2.1 != rc) :=
  ⟨findBest_spec h, entries_stepMatrix m rd rc⟩

/-- C1 witness: the round on `sampleMatrixA` accepts `("d1", "c2")` with
score 7, the first of the two score-7 candidates in iteration order. -/
theorem claim_C1_greedy_round_witness :
    findBest sampleMatrixA = some ((("d1")), (("c2")), (7:ℚ)) ∧
    ((∃ l1 d l2, entries sampleMatrixA = l1 ++ ((("d1")), (("c2")), d) :: l2 ∧
        entryScore d = (7:ℚ) ∧
        (∀ x ∈ l1, entryScore x.2.2 < (7:ℚ)) ∧
        (∀ x ∈ entries sampleMatrixA, entryScore x.2.2 ≤ (7:ℚ))) ∧
      entries (stepMatrix sampleMatrixA ("d1") ("c2")) =
        (entries sampleMatrixA).filter (fun e => e.1 != ("d1") && e.2.1 != ("c2"))) :=
  ⟨by decide, claim_C1_greedy_round sampleMatrixA ("d1") ("c2") 7 (by decide)⟩

/-- C2: the aggregated score stored for a candidate pair equals the
weighted sum (10·structuralOverlap + 0.5·levenshtein + 1·jaroWinkler +
0.5·damerauLevenshtein + 1·ratcliffObershelp + 1.5·cosine) divided by the
total weight 14.5, over exactly those six entries. -/
theorem claim_C2_aggregated_score (d c : Res) (dict : List (String × ℝ)) (cval : ℝ)
    (hc : cosineStep d.address c.address = Except.ok cval)
    (h : pairEntry d c = Except.ok dict) :
    dictGetD dict ("aggregated") 0 =
      (10 * (stateMatch d c : ℝ) +
       (1/2) * ((levenshtein_metric d.address c.address : ℚ) : ℝ) +
       1 * ((jaro_winkler_similarity d.address c.address : ℚ) : ℝ) +
       (1/2) * ((damerau_metric d.address c.address : ℚ) : ℝ) +
       1 * ((ratcliff_obershelp d.address c.address : ℚ) : ℝ) +
       (3/2) * cval) / (29/2) := by
  unfold pairEntry at h
  unfold compute_similarity_scores at h
  rw [hc] at h
  simp only [Except.ok.injEq] at h
  subst h
  unfold scoreEntry
  simp only [dictGetD, List.cons_append, List.nil_append]
  rw [aggregate_scores_formula]
  simp

/-- C2 witness: the formula instantiated on the sample pair. -/
theorem claim_C2_aggregated_score_witness :
    dictGetD (scoreEntry (stateMatch sampleResA sampleResB)
      [(("levenshtein"), ((levenshtein_metric ("aa") ("ab") : ℚ) : ℝ)),
       (("jaro_winkler"), ((jaro_winkler_similarity ("aa") ("ab") : ℚ) : ℝ)),
       (("damerau_levenshtein"), ((damerau_metric ("aa") ("ab") : ℚ) : ℝ)),
       (("ratcliff_obershelp"), ((ratcliff_obershelp ("aa") ("ab") : ℚ) : ℝ)),
       (("cosine"), cosineSimilarityR
         (countVec (charBigrams ("aa")) ((charBigrams ("aa") ++ charBigrams ("ab")).eraseDups))
         (countVec (charBigrams ("ab")) ((charBigrams ("aa") ++ charBigrams ("ab")).eraseDups)))])
      ("aggregated") 0 =
      (10 * (stateMatch sampleResA sampleResB : ℝ) +
       (1/2) * ((levenshtein_metric sampleResA.address sampleResB.address : ℚ) : ℝ) +
       1 * ((jaro_winkler_similarity sampleResA.address sampleResB.address : ℚ) : ℝ) +
       (1/2) * ((damerau_metric sampleResA.address sampleResB.address : ℚ) : ℝ) +
       1 * ((ratcliff_obershelp sampleResA.address sampleResB.address : ℚ) : ℝ) +
       (3/2) * cosineSimilarityR
         (countVec (charBigrams ("aa")) ((charBigrams ("aa") ++ charBigrams ("ab")).eraseDups))
         (countVec (charBigrams ("ab")) ((charBigrams ("aa") ++ charBigrams ("ab")).eraseDups))) /
       (29/2) :=
  claim_C2_aggregated_score sampleResA sampleResB _ _ rfl rfl

/-- C3 counterexample: with no removed resources and one added resource of
type `t2`, the run succeeds, yet the added identifier `c` ends neither
matched nor unmatched — the added-side sets do not cover the added
identifier universe, refuting the claimed partition. -/
theorem claim_C3_counterexample :
    mainSolve [] [sampleCreated] = Except.ok ([], [], []) ∧
    ¬((("c") : String) ∈ ([] : List (String × String × ℝ)).map (fun t => t.2.1) ∨
      (("c") : String) ∈ ([] : List String)) := by
  constructor
  · have hbm : buildMatrix [] [sampleCreated] = Except.ok [] := rfl
    unfold mainSolve
    simp only [hbm]
    unfold runSolver
    rw [solveAux_none (by rfl)]
    rfl
  · simp

/-- C3 amended: on every input whose scoring succeeds, the removed-side
matched and unmatched identifiers partition the removed identifier
universe, and the added-side matched and unmatched identifiers partition
the set of added identifiers that appear as candidates in the matrix
(added identifiers of a type with no removed counterpart never enter the
bookkeeping); no identifier is both matched and unmatched. -/
theorem claim_C3_amended_partition (ds cs : List Res) (m : ScoreMatrix ℝ)
    (h : buildMatrix ds cs = Except.ok m) :
    (∀ a, ((a ∈ (runSolver m).1.map (fun t => t.1)) ∨ a ∈ (runSolver m).2.1) ↔
      ∃ d ∈ ds, d.address = a) ∧
    (∀ a, ¬((a ∈ (runSolver m).1.map (fun t => t.1)) ∧ a ∈ (runSolver m).2.1)) ∧
    (∀ a, ((a ∈ (runSolver m).1.map (fun t => t.2.1)) ∨ a ∈ (runSolver m).2.2) ↔
      a ∈ innerKeys m) ∧
    (∀ a, ¬((a ∈ (runSolver m).1.map (fun t => t.2.1)) ∧ a ∈ (runSolver m).2.2)) := by
  obtain ⟨h1, h2, h3, h4⟩ := runSolver_partition m
  refine ⟨?_, h3, h2, h4⟩
  intro a
  rw [h1 a]
  exact buildMatrix_keys h a

/-- C3 witness: on one removed resource of type `t1` and one added resource
of type `t2`, the removed address `d` is covered by the partition. -/
theorem claim_C3_amended_partition_witness :
    ((("d") : String) ∈ (runSolver [((("d") : String), ([] : MatrixRow ℝ))]).1.map
        (fun t => t.1) ∨
      (("d") : String) ∈ (runSolver [((("d") : String), ([] : MatrixRow ℝ))]).2.1) ↔
      ∃ d ∈ [sampleDestroyed], d.address = ("d") :=
  (claim_C3_amended_partition [sampleDestroyed] [sampleCreated]
    [(("d"), [])] rfl).1 ("d")

/-- C4: the specification requires the cosine bigram metric to be 0.0,
without failing, whenever either identifier has fewer than 2 characters.
The code only half complies: with exactly one short identifier the metric
is 0.0, but with both identifiers short the bigram vocabulary is empty and
the vectorizer raises, so the profiler fails instead of reporting 0.0. -/
theorem claim_C4_cosine_short_strings :
    (compute_similarity_scores ("a") ("b")).isOk = false ∧
    dictGetD (okScores (compute_similarity_scores ("ab") ("a"))) (("cosine")) 2 = 0 := by
  constructor
  · rfl
  · have hred : dictGetD (okScores (compute_similarity_scores ("ab") ("a"))) (("cosine")) 2 =
        cosineSimilarityR
          (countVec (charBigrams ("ab")) ((charBigrams ("ab") ++ charBigrams ("a")).eraseDups))
          (countVec (charBigrams ("a")) ((charBigrams ("ab") ++ charBigrams ("a")).eraseDups)) :=
      rfl
    rw [hred]
    have hv : countVec (charBigrams ("a"))
        ((charBigrams ("ab") ++ charBigrams ("a")).eraseDups) = [0] := rfl
    have hu : countVec (charBigrams ("ab"))
        ((charBigrams ("ab") ++ charBigrams ("a")).eraseDups) = [1] := rfl
    rw [hu, hv]
    unfold cosineSimilarityR
    rw [show dotNN [1] [0] = 0 from rfl]
    norm_num

/-- C5: the specification requires the profiler to report maximal
length-normalized similarity on equal identifiers without failing. The
normalized Levenshtein and Damerau-Levenshtein metrics are indeed 1
(division by zero is guarded), but on equal identifiers shorter than two
characters — the empty string in particular — the profiler then fails at
the cosine step, so the run as a whole raises. -/
theorem claim_C5_equal_identifiers :
    (∀ a : String, levenshtein_metric a a = 1 ∧ damerau_metric a a = 1) ∧
    (compute_similarity_scores ("") ("")).isOk = false := by
  constructor
  · intro a
    exact ⟨levenshtein_metric_self a, damerau_metric_self a⟩
  · rfl

/-- C6 counterexample: with no removed resources and one added resource,
the matrix holds no candidate pairs; the solver succeeds with an empty
assignment, but the added-side unmatched set is empty rather than full —
`c` is missing from it. -/
theorem claim_C6_counterexample :
    mainSolve [] [sampleCreated] = Except.ok ([], [], []) ∧
    (("c") : String) ∉ ([] : List String) := by
  constructor
  · have hbm : buildMatrix [] [sampleCreated] = Except.ok [] := rfl
    unfold mainSolve
    simp only [hbm]
    unfold runSolver
    rw [solveAux_none (by rfl)]
    rfl
  · simp

/-- C6 amended: on every input whose matrix holds no candidate pairs, the
solver does not error: it returns an empty assignment, the removed-side
unmatched set covering exactly the removed identifier universe, and an
empty added-side unmatched set (added identifiers without a same-type
removed item never enter the unmatched bookkeeping). -/
theorem claim_C6_amended_empty_matrix (ds cs : List Res) (m : ScoreMatrix ℝ)
    (h : buildMatrix ds cs = Except.ok m) (hemp : entries m = []) :
    mainSolve ds cs = Except.ok ([], matrixKeys m, []) ∧
    (∀ a, a ∈ matrixKeys m ↔ ∃ d ∈ ds, d.address = a) := by
  have hfb : findBest m = none := (findBest_none_iff m).mpr hemp
  constructor
  · unfold mainSolve
    simp only [h]
    unfold runSolver
    rw [solveAux_none hfb, innerKeys_eq_nil hemp]
  · exact buildMatrix_keys h

/-- C6 witness: one removed resource of type `t1`, one added resource of
type `t2`: the matrix holds the removed key with no candidates, and the
solver returns empty assignment, full removed unmatched set, empty added
unmatched set. -/
theorem claim_C6_amended_empty_matrix_witness :
    (mainSolve [sampleDestroyed] [sampleCreated] =
      Except.ok ([], matrixKeys [((("d") : String), ([] : MatrixRow ℝ))], [])) ∧
    ((("d") : String) ∈ matrixKeys [((("d") : String), ([] : MatrixRow ℝ))] ↔
      ∃ d ∈ [sampleDestroyed], d.address = ("d")) :=
  ⟨(claim_C6_amended_empty_matrix [sampleDestroyed] [sampleCreated]
      [(("d"), [])] rfl rfl).1,
   (claim_C6_amended_empty_matrix [sampleDestroyed] [sampleCreated]
      [(("d"), [])] rfl rfl).2 ("d")⟩

/-- C7: no accepted pair's aggregated score is lower than the score of any
candidate removed because it shared the accepted removed or added
identifier: every such candidate was present in the matrix at acceptance
time, and the accepted score is maximal there. -/
theorem claim_C7_no_improving_swap (m : ScoreMatrix ℚ) (rd rc : String) (s : ℚ)
    (h : findBest m = some (rd, rc, s)) :
    ∀ e ∈ entries m, (e.1 = rd ∨ e.2.1 = rc) → entryScore e.2.2 ≤ s := by
  intro e he _
  obtain ⟨l1, d, l2, heq, hds, hpre, hall⟩ := findBest_spec h
  exact hall e he

/-- C7 witness: in `sampleMatrixB` the pair `("d2", "c1")` with score 4 is
removed because the accepted pair `("d1", "c1")` with score 5 claims `c1`,
and 4 ≤ 5. -/
theorem claim_C7_no_improving_swap_witness :
    findBest sampleMatrixB = some ((("d1")), (("c1")), (5:ℚ)) ∧
    entryScore ((([(("aggregated"), (4:ℚ))]) : ScoreDict ℚ)) ≤ (5:ℚ) :=
  ⟨by decide,
   claim_C7_no_improving_swap sampleMatrixB ("d1") ("c1") 5 (by decide)
     ((("d2")), (("c1")), [(("aggregated"), (4:ℚ))]) (by decide) (Or.inr rfl)⟩

/-- C8 counterexample: `calculate_match_scores` creates the row key by
`setdefault` before scanning created resources, so with one destroyed
resource and no created resources the key `d` is present with no viable
candidate — the claimed present-iff-candidates invariant fails at
construction. -/
theorem claim_C8_counterexample :
    calculate_match_scores [sampleDestroyed] [] = Except.ok [(("d"), [])] ∧
    ¬(∀ row ∈ [((("d") : String), ([] : MatrixRow ℝ))], row.2 ≠ []) := by
  constructor
  · rfl
  · intro hall
    exact hall (("d"), []) (by simp) rfl

/-- C8 amended: at construction a removed key is always present and its
candidate list is empty exactly when the same call saw no created
resources; after every solver round, every surviving removed key has at
least one remaining candidate (empty rows are pruned). -/
theorem claim_C8_amended_viability :
    (∀ (ds cs : List Res) (m : ScoreMatrix ℝ),
      calculate_match_scores ds cs = Except.ok m →
      ∀ row ∈ m, (row.2 = [] ↔ cs = [])) ∧
    (∀ (m : ScoreMatrix ℝ) (rd rc : String),
      ∀ row ∈ stepMatrix m rd rc, row.2 ≠ []) := by
  constructor
  · intro ds cs m h
    exact calculate_match_scores_rows h
  · intro m rd rc row h
    unfold stepMatrix removeDestroy removeCreate at h
    obtain ⟨h1, _⟩ := List.mem_filter.mp h
    obtain ⟨_, h2⟩ := List.mem_filter.mp h1
    intro hnil
    rw [hnil] at h2
    simp at h2

/-- C8 witness: the construction direction on a one-destroyed, no-created
call, and the after-round direction on the two-row sample matrix. -/
theorem claim_C8_amended_viability_witness :
    (((("d") : String), ([] : MatrixRow ℝ)).2 = [] ↔ ([] : List Res) = []) ∧
    (∀ row ∈ stepMatrix sampleMatrixC ("d1") ("c1"), row.2 ≠ []) :=
  ⟨claim_C8_amended_viability.1 [sampleDestroyed] [] [(("d"), [])] rfl
      (("d"), []) (by simp),
   claim_C8_amended_viability.2 sampleMatrixC ("d1") ("c1")⟩

/-- C9: on every pair of identifier strings on which the profiler returns,
each individual metric score lies in the closed interval from 0 to 1. -/
theorem claim_C9_metric_bounds (a b : String) :
    ∀ p ∈ okScores (compute_similarity_scores a b), 0 ≤ p.2 ∧ p.2 ≤ 1 := by
  intro p hp
  cases hc : compute_similarity_scores a b with
  | error e =>
    rw [hc] at hp
    simp [okScores] at hp
  | ok d =>
    rw [hc] at hp
    exact compute_similarity_scores_bounds hc p hp

/-- C9 witness: the profiler succeeds on `("ab", "ab")` and its normalized
Levenshtein entry is bounded by 0 and 1. -/
theorem claim_C9_metric_bounds_witness :
    0 ≤ ((("levenshtein"), ((levenshtein_metric ("ab") ("ab") : ℚ) : ℝ)) :
        String × ℝ).2 ∧
    ((("levenshtein"), ((levenshtein_metric ("ab") ("ab") : ℚ) : ℝ)) :
        String × ℝ).2 ≤ 1 :=
  claim_C9_metric_bounds ("ab") ("ab")
    ((("levenshtein"), ((levenshtein_metric ("ab") ("ab") : ℚ) : ℝ)))
    (List.mem_cons_self _ _)

/-- C10: the solver loop terminates on every finite matrix — whenever a
round accepts a pair, the accepted removed identifier's row is deleted so
the number of removed keys strictly decreases, and the number of rounds is
at most the number of removed-identifier keys. -/
theorem claim_C10_termination (m : ScoreMatrix ℚ) :
    loopRounds m ≤ m.length ∧
    (∀ rd rc s, findBest m = some (rd, rc, s) →
      (stepMatrix m rd rc).length < m.length) :=
  ⟨loopRounds_le m,
   fun rd rc s h => stepMatrix_length_lt rc (findBest_key_mem h)⟩

/-- C10 witness: on `sampleMatrixA`, one round shrinks the matrix. -/
theorem claim_C10_termination_witness :
    loopRounds sampleMatrixA ≤ sampleMatrixA.length ∧
    (stepMatrix sampleMatrixA ("d1") ("c2")).length < sampleMatrixA.length :=
  ⟨(claim_C10_termination sampleMatrixA).1,
   (claim_C10_termination sampleMatrixA).2 ("d1") ("c2") 7 (by decide)⟩

end TMH
